import Mathlib

/-!
Shallow embedding of the heap-based process scheduling simulator
(`scheduler_code.py` and `scheduler_code_rr.py`).

The two Python files share one loop structure for the priority/SJF/FCFS
schedulers; they differ only in bookkeeping (the completion-metric formula,
where `last_process` is updated, and whether a preempted process's own
`context_switches` counter is bumped).  We embed the shared loop once,
parameterised by a `Variant` selecting those bookkeeping differences, so
`Variant.v1` is `scheduler_code.py.ProcessScheduler.schedule` and
`Variant.v2` is `scheduler_code_rr.py.ProcessScheduler._heap_based_schedule`.
The round-robin loop (`_round_robin`) exists only in the second file.

Python's `heapq` is modelled by a plain list of `(key, process)` pairs with a
`popMin` operation returning a minimal element: with all process ids distinct
the heap keys are totally ordered and distinct, so `heappop` is exactly
"remove the minimum", independent of the internal heap layout.

Machine integers are `Int` (Python ints are unbounded); the simulation clock
and tick counters are `Nat` (they start at 0 and only grow); Python float
metrics are modelled as exact rationals `ℚ`.  The loops are embedded with
explicit fuel: `none` models non-termination of the Python `while` loop.
-/

namespace HeapSched

/-- `Process.__init__` state (both files, identical): one simulated task. -/
structure Process where
  pid : String
  arrival : Int
  burst : Int
  priority : Int
  processType : String
  remaining : Int
  start : Option Nat
  finish : Option Nat
  waiting : Int
  turnaround : Int
  responseTime : Option Int
  contextSwitches : Nat
  executionHistory : List Nat
  state : String
  deriving Repr, DecidableEq

/-- `Process.__init__(pid, arrival, burst, priority, process_type)`:
plain field assignment, no validation of any field. -/
def mkProcess (pid : String) (arrival burst priority : Int)
    (ptype : String) : Process :=
  { pid := pid, arrival := arrival, burst := burst, priority := priority
    processType := ptype, remaining := burst, start := none, finish := none
    waiting := 0, turnaround := 0, responseTime := none, contextSwitches := 0
    executionHistory := [], state := "NEW" }

/-- `scheduler_code.py` `Process.calculate_metrics` (lines 30-35):
`waiting = start - arrival`, `turnaround = finish - arrival`,
`response_time = start - arrival`, guarded on start/finish being set. -/
def calculateMetricsV1 (p : Process) : Process :=
  match p.start, p.finish with
  | some s, some f =>
      { p with waiting := (s : Int) - p.arrival
               turnaround := (f : Int) - p.arrival
               responseTime := some ((s : Int) - p.arrival) }
  | _, _ => p

/-- `scheduler_code_rr.py` `Process.calculate_metrics` (lines 30-38):
`turnaround = finish - arrival`, `waiting = turnaround - len(execution_history)`,
`response_time = start - arrival` only if still unset. -/
def calculateMetricsV2 (p : Process) : Process :=
  match p.start, p.finish with
  | some s, some f =>
      let t : Int := (f : Int) - p.arrival
      { p with turnaround := t
               waiting := t - (p.executionHistory.length : Int)
               responseTime :=
                 match p.responseTime with
                 | none => some ((s : Int) - p.arrival)
                 | some r => some r }
  | _, _ => p

/-- Which of the two Python files' heap-scheduler bookkeeping to follow. -/
inductive Variant where
  | v1  -- scheduler_code.py  ProcessScheduler.schedule
  | v2  -- scheduler_code_rr.py  ProcessScheduler._heap_based_schedule
  deriving Repr, DecidableEq

def applyMetrics : Variant → Process → Process
  | .v1 => calculateMetricsV1
  | .v2 => calculateMetricsV2

/-- Heap ordering key.  Python pushes tuples
`(-priority, arrival, pid, proc)` / `(remaining, arrival, pid, proc)` /
`(arrival, pid, proc)`; with distinct pids the tuple order is the
lexicographic order on these key components (FCFS keys embed with a
constant `0` middle component, which does not affect their relative order). -/
abbrev Key := Int × Int × String

/-- A kernel-computable decision procedure for `<` on strings (Python's
lexicographic string comparison), deciding on the character list. -/
instance strLtDec (s t : String) : Decidable (s < t) :=
  decidable_of_iff (s.toList < t.toList) String.lt_iff_toList_lt.symm

/-- Strict lexicographic order on heap keys (Python tuple `<`). -/
def keyLt (a b : Key) : Prop :=
  a.1 < b.1 ∨ (a.1 = b.1 ∧ (a.2.1 < b.2.1 ∨ (a.2.1 = b.2.1 ∧ a.2.2 < b.2.2)))

instance (a b : Key) : Decidable (keyLt a b) := by
  unfold keyLt; infer_instance

/-- The heap key under which algorithm `alg` pushes process `p`
(`heapq.heappush` call sites in both files); `none` for an unknown
algorithm, where no push happens. -/
def admitKey (alg : String) (p : Process) : Option Key :=
  if alg = "priority" then some (-p.priority, p.arrival, p.pid)
  else if alg = "sjf" then some (p.remaining, p.arrival, p.pid)
  else if alg = "fcfs" then some (p.arrival, 0, p.pid)
  else none

/-- Remove a minimal-key element from the heap list (`heapq.heappop`). -/
def popMin : List (Key × Process) → Option ((Key × Process) × List (Key × Process))
  | [] => none
  | x :: xs =>
    match popMin xs with
    | none => some (x, [])
    | some (m, rest) => if keyLt m.1 x.1 then some (m, x :: rest) else some (x, xs)

/-- The minimal key of the heap (`ready_heap[0][0]`). -/
def findMinKey (heap : List (Key × Process)) : Option Key :=
  (popMin heap).map (fun r => r.1.1)

/-- The preemption predicate (lines 80-88 of scheduler_code.py,
lines 89-96 of scheduler_code_rr.py): priority compares the negated top
key against the running priority; SJF compares the top remaining; any
other algorithm leaves `should_preempt = False`. -/
def shouldPreemptF (alg : String) (heap : List (Key × Process)) (r : Process) : Bool :=
  match findMinKey heap with
  | none => false
  | some k =>
    if alg = "priority" then decide (r.priority < -k.1)
    else if alg = "sjf" then decide (k.1 < r.remaining)
    else false

/-- Engine state of the heap-based scheduling loop: the local loop
variables (`clock`, `ready_heap`, un-admitted suffix of `self.processes`,
`running`, `last_process`) together with the scheduler object's fields.
`dispatchLog` is the pid projection of the "started/resumed execution"
entries of `self.execution_log`. -/
structure HState where
  pending : List Process
  ready : List (Key × Process)
  running : Option Process
  clock : Nat
  completed : List Process
  idleTime : Nat
  contextSwitches : Nat
  lastPid : Option String
  dispatchLog : List String
  cpuUtilization : ℚ
  throughput : ℚ
  deriving Repr, DecidableEq

/-- `proc.state = "READY"`, as performed on admission and re-queueing. -/
def readyProc (p : Process) : Process := { p with state := "READY" }

/-- Admission sweep: `while process_index < total and processes[i].arrival <= clock`,
marking each arrival READY and pushing it under its algorithm key (a record
admitted under an unknown algorithm is marked READY but never pushed). -/
def admitLoop (alg : String) (clock : Nat) :
    List Process → List (Key × Process) → List (Key × Process) × List Process
  | [], heap => (heap, [])
  | p :: rest, heap =>
    if p.arrival ≤ (clock : Int) then
      let p' := readyProc p
      let heap' :=
        match admitKey alg p' with
        | some k => heap ++ [(k, p')]
        | none => heap
      admitLoop alg clock rest heap'
    else (heap, p :: rest)

/-- Phase 1 of a loop iteration: the admission sweep, updating the ready
heap and the un-admitted suffix. -/
def phaseAdmit (alg : String) (st : HState) : HState :=
  let ap := admitLoop alg st.clock st.pending st.ready
  { st with ready := ap.1, pending := ap.2 }

/-- A preempted running process as re-inserted into the heap:
`running.state = "READY"`; `scheduler_code.py` additionally performs
`running.context_switches += 1` before re-pushing. -/
def preemptedProc (var : Variant) (r : Process) : Process :=
  { r with state := "READY"
           contextSwitches :=
             match var with
             | .v1 => r.contextSwitches + 1
             | .v2 => r.contextSwitches }

/-- Phase 2: the preemption check — only in `"preemptive"` mode with a
non-empty heap, and only the priority/SJF comparisons can fire.  A
preempted process is re-pushed under its current key and the scheduler's
context-switch counter is incremented. -/
def phasePreempt (var : Variant) (mode alg : String) (st : HState) : HState :=
  match st.running with
  | none => st
  | some r =>
    if mode = "preemptive" ∧ st.ready ≠ [] ∧ shouldPreemptF alg st.ready r = true then
      let r' := preemptedProc var r
      let heap' :=
        match admitKey alg r' with
        | some k => st.ready ++ [(k, r')]
        | none => st.ready
      { st with ready := heap', running := none
                contextSwitches := st.contextSwitches + 1 }
    else st

/-- A process as mutated at dispatch: `state = "RUNNING"`, and on its first
dispatch `start = clock` (where `scheduler_code.py` also sets
`response_time = clock - arrival`; the other file sets it in
`calculate_metrics` instead). -/
def dispatchedProc (var : Variant) (clock : Nat) (p : Process) : Process :=
  let p1 := { p with state := "RUNNING" }
  match p1.start with
  | none =>
    { p1 with start := some clock
              responseTime :=
                match var with
                | .v1 => some ((clock : Int) - p1.arrival)
                | .v2 => p1.responseTime }
  | some _ => p1

/-- Phase 3: if no process is running, pop the heap minimum and dispatch
it, counting a context switch when the last process to hold the CPU had a
different pid (`scheduler_code_rr.py` updates `last_process` here;
`scheduler_code.py` updates it in the execution phase). -/
def phaseDispatch (var : Variant) (st : HState) : HState :=
  match st.running with
  | some _ => st
  | none =>
    match popMin st.ready with
    | none => st
    | some (kp, rest) =>
      let p2 := dispatchedProc var st.clock kp.2
      let ctx' :=
        match st.lastPid with
        | some lp => if lp ≠ p2.pid then st.contextSwitches + 1 else st.contextSwitches
        | none => st.contextSwitches
      let last' :=
        match var with
        | .v1 => st.lastPid
        | .v2 => some p2.pid
      { st with ready := rest, running := some p2, contextSwitches := ctx'
                lastPid := last', dispatchLog := st.dispatchLog ++ [p2.pid] }

/-- One executed tick: `remaining -= 1`, the current clock appended to the
execution history. -/
def tickProc (clock : Nat) (r : Process) : Process :=
  { r with remaining := r.remaining - 1
           executionHistory := r.executionHistory ++ [clock] }

/-- Phase 4: execute the running process for one time unit (completing it
when its remaining time reaches 0), or count an idle tick; `clock += 1`. -/
def phaseExec (var : Variant) (st : HState) : HState :=
  match st.running with
  | some r =>
    let r1 := tickProc st.clock r
    let last4 :=
      match var with
      | .v1 => some r1.pid
      | .v2 => st.lastPid
    if r1.remaining = 0 then
      let r2 := applyMetrics var
        { r1 with finish := some (st.clock + 1), state := "TERMINATED" }
      { st with running := none, clock := st.clock + 1
                completed := st.completed ++ [r2], lastPid := last4 }
    else
      { st with running := some r1, clock := st.clock + 1, lastPid := last4 }
  | none =>
      { st with clock := st.clock + 1, idleTime := st.idleTime + 1 }

/-- One iteration of the heap-based scheduling `while` loop
(scheduler_code.py lines 62-142 / scheduler_code_rr.py lines 74-132):
admission sweep, preemption check, dispatch, then execute one tick or idle,
finally `clock += 1`.  The `Variant` selects the bookkeeping differences
between the two files (see the phase definitions). -/
def heapStep (var : Variant) (mode alg : String) (st : HState) : HState :=
  phaseExec var (phaseDispatch var (phasePreempt var mode alg (phaseAdmit alg st)))

/-- Exit condition of the heap scheduling loop:
`process_index >= total and not ready_heap and not running`. -/
def hDone (st : HState) : Prop :=
  st.pending = [] ∧ st.ready = [] ∧ st.running = none

instance (st : HState) : Decidable (hDone st) := by
  unfold hDone; infer_instance

/-- Fuel-indexed iteration of the heap scheduling loop. -/
def hRun (var : Variant) (mode alg : String) : Nat → HState → HState
  | 0, st => st
  | n + 1, st => if hDone st then st else hRun var mode alg n (heapStep var mode alg st)

/-- `sorted(processes, key=lambda p: p.arrival)` (a stable ascending sort). -/
def arrivalLE (p q : Process) : Prop := p.arrival ≤ q.arrival

instance : DecidableRel arrivalLE :=
  fun p q => inferInstanceAs (Decidable (p.arrival ≤ q.arrival))

instance : IsTotal Process arrivalLE :=
  ⟨fun p q => Int.le_total p.arrival q.arrival⟩

instance : IsTrans Process arrivalLE :=
  ⟨fun _ _ _ h h' => le_trans h h'⟩

def sortByArrival (l : List Process) : List Process := List.insertionSort arrivalLE l

/-- Scheduler construction (`ProcessScheduler.__init__` of either file):
the loop's initial state, with the input sorted by arrival and every
counter and metric zeroed.  No field is validated. -/
def initH (ps : List Process) : HState :=
  { pending := sortByArrival ps, ready := [], running := none, clock := 0
    completed := [], idleTime := 0, contextSwitches := 0, lastPid := none
    dispatchLog := [], cpuUtilization := 0, throughput := 0 }

def sumBursts (ps : List Process) : Nat := (ps.map (fun p => p.burst.toNat)).sum

def maxArrival (ps : List Process) : Nat :=
  (ps.map (fun p => p.arrival.toNat)).foldr max 0

/-- Fuel that (provably) dominates the number of loop iterations whenever
the Python loop terminates under the claims' hypotheses. -/
def schedBound (ps : List Process) : Nat := sumBursts ps + maxArrival ps + 1

/-- `calculate_system_metrics(total_time)` (identical in both files):
sets utilization and throughput only when the elapsed clock is positive. -/
def systemMetrics (st : HState) : HState :=
  if 0 < st.clock then
    { st with
        cpuUtilization := (((st.clock : ℚ) - (st.idleTime : ℚ)) / (st.clock : ℚ)) * 100
        throughput := (st.completed.length : ℚ) / (st.clock : ℚ) }
  else st

/-- `scheduler_code.py` `ProcessScheduler.schedule()`: run the loop to
completion and compute system metrics.  `none` models a run of the Python
loop that does not terminate within any finite number of iterations
bounded by `schedBound` (the loop has no other exit). -/
def scheduleV1 (ps : List Process) (mode alg : String) : Option HState :=
  let st := hRun .v1 mode alg (schedBound ps) (initH ps)
  if hDone st then some (systemMetrics st) else none

/-! ### Round robin (`scheduler_code_rr.py._round_robin`) -/

/-- Engine state of the round-robin loop: `ready_queue` is a plain FIFO. -/
structure RState where
  pending : List Process
  queue : List Process
  clock : Nat
  completed : List Process
  idleTime : Nat
  contextSwitches : Nat
  cpuUtilization : ℚ
  throughput : ℚ
  deriving Repr, DecidableEq

/-- RR admission sweep: arrivals are appended to the FIFO tail. -/
def admitRR (clock : Nat) :
    List Process → List Process → List Process × List Process
  | [], q => (q, [])
  | p :: rest, q =>
    if p.arrival ≤ (clock : Int) then
      admitRR clock rest (q ++ [readyProc p])
    else (q, p :: rest)

/-- The ticks `clock, clock+1, ..., clock+n-1` appended to the execution
history by the RR slice loop. -/
def histTicks (c n : Nat) : List Nat := (List.range n).map (fun i => c + i)

/-- First dispatch of an RR process: `start` and `response_time` are set
when the process is popped for the first time. -/
def rrStartProc (c : Nat) (p : Process) : Process :=
  match p.start with
  | none => { p with start := some c
                     responseTime := some ((c : Int) - p.arrival) }
  | some _ => p

/-- One iteration of the `_round_robin` `while` loop (lines 147-186):
admission sweep; if the queue is empty idle one tick; otherwise pop the
head, run it for `min(quantum, remaining)` ticks (the slice loop advances
the clock once per executed tick), then re-enqueue it at the tail or
complete it; `context_switches += 1` either way. -/
def rrStep (quantum : Int) (st : RState) : RState :=
  let aq := admitRR st.clock st.pending st.queue
  let queue1 := aq.1
  let pending1 := aq.2
  match queue1 with
  | [] =>
      { st with pending := pending1, queue := []
                idleTime := st.idleTime + 1, clock := st.clock + 1 }
  | p :: qrest =>
    let p1 := rrStartProc st.clock p
    let execTime : Int := min quantum p1.remaining
    let ticks := execTime.toNat
    let p2 := { p1 with
        executionHistory := p1.executionHistory ++ histTicks st.clock ticks
        remaining := p1.remaining - execTime }
    let clock2 := st.clock + ticks
    if 0 < p2.remaining then
      { pending := pending1, queue := qrest ++ [p2], clock := clock2
        completed := st.completed, idleTime := st.idleTime
        contextSwitches := st.contextSwitches + 1
        cpuUtilization := st.cpuUtilization, throughput := st.throughput }
    else
      let p3 := { calculateMetricsV2 { p2 with finish := some clock2 }
                    with state := "TERMINATED" }
      { pending := pending1, queue := qrest, clock := clock2
        completed := st.completed ++ [p3], idleTime := st.idleTime
        contextSwitches := st.contextSwitches + 1
        cpuUtilization := st.cpuUtilization, throughput := st.throughput }

/-- Exit condition of the RR loop: `process_index >= total and not ready_queue`. -/
def rDone (st : RState) : Prop := st.pending = [] ∧ st.queue = []

instance (st : RState) : Decidable (rDone st) := by
  unfold rDone; infer_instance

def rRun (quantum : Int) : Nat → RState → RState
  | 0, st => st
  | n + 1, st => if rDone st then st else rRun quantum n (rrStep quantum st)

def initR (ps : List Process) : RState :=
  { pending := sortByArrival ps, queue := [], clock := 0, completed := []
    idleTime := 0, contextSwitches := 0, cpuUtilization := 0, throughput := 0 }

/-- RR system-metric computation (same formula as `systemMetrics`). -/
def systemMetricsR (st : RState) : RState :=
  if 0 < st.clock then
    { st with
        cpuUtilization := (((st.clock : ℚ) - (st.idleTime : ℚ)) / (st.clock : ℚ)) * 100
        throughput := (st.completed.length : ℚ) / (st.clock : ℚ) }
  else st

def scheduleRR (ps : List Process) (quantum : Int) : Option RState :=
  let st := rRun quantum (schedBound ps) (initR ps)
  if rDone st then some (systemMetricsR st) else none

/-- The externally observable outcome of a completed run of the
`scheduler_code_rr.py` scheduler object. -/
structure RunResult where
  completed : List Process
  clock : Nat
  idleTime : Nat
  contextSwitches : Nat
  cpuUtilization : ℚ
  throughput : ℚ
  deriving Repr, DecidableEq

def hResult (st : HState) : RunResult :=
  { completed := st.completed, clock := st.clock, idleTime := st.idleTime
    contextSwitches := st.contextSwitches
    cpuUtilization := st.cpuUtilization, throughput := st.throughput }

def rResult (st : RState) : RunResult :=
  { completed := st.completed, clock := st.clock, idleTime := st.idleTime
    contextSwitches := st.contextSwitches
    cpuUtilization := st.cpuUtilization, throughput := st.throughput }

/-- `str.lower()` as used on the ASCII algorithm names
(`algorithm.lower()` in `ProcessScheduler.__init__`). -/
def lowerString (s : String) : String :=
  ⟨s.data.map Char.toLower⟩

/-- `scheduler_code_rr.py` `ProcessScheduler.schedule()` (lines 56-61):
lower-cases the algorithm name and dispatches to the RR or heap loop. -/
def scheduleV2 (ps : List Process) (mode algorithm : String) (quantum : Int) :
    Option RunResult :=
  let alg := lowerString algorithm
  if alg = "rr" then (scheduleRR ps quantum).map rResult
  else
    let st := hRun .v2 mode alg (schedBound ps) (initH ps)
    if hDone st then some (hResult (systemMetrics st)) else none

/-- A process record exactly as produced by `Process.__init__`, i.e. not
yet touched by any scheduler run. -/
def Fresh (p : Process) : Prop :=
  p.remaining = p.burst ∧ p.start = none ∧ p.finish = none ∧
  p.waiting = 0 ∧ p.turnaround = 0 ∧ p.responseTime = none ∧
  p.contextSwitches = 0 ∧ p.executionHistory = [] ∧ p.state = "NEW"

instance (p : Process) : Decidable (Fresh p) := by
  unfold Fresh; infer_instance

/-- `scheduler_code_rr.py` `ProcessScheduler.__init__` (lines 44-54): the
constructed scheduler object.  Every argument, including `quantum`, is
stored without validation. -/
structure SchedulerV2 where
  processes : List Process
  mode : String
  algorithm : String
  quantum : Int
  completed : List Process
  contextSwitches : Nat
  cpuUtilization : ℚ
  throughput : ℚ
  idleTime : Nat
  deriving Repr, DecidableEq

def mkSchedulerV2 (ps : List Process) (mode algorithm : String)
    (quantum : Int) : SchedulerV2 :=
  { processes := sortByArrival ps, mode := mode
    algorithm := lowerString algorithm, quantum := quantum
    completed := [], contextSwitches := 0, cpuUtilization := 0
    throughput := 0, idleTime := 0 }

/-- The three algorithm names recognised by the heap-based scheduler. -/
def ValidAlg (alg : String) : Prop :=
  alg = "priority" ∨ alg = "sjf" ∨ alg = "fcfs"

/-- The admission predicate of the sweep at a given clock. -/
def admitP (c : Nat) : Process → Bool := fun p => decide (p.arrival ≤ (c : Int))

/-- The heap entries contributed by one admission sweep. -/
def admitEntries (alg : String) (c : Nat) (ps : List Process) : List (Key × Process) :=
  (ps.takeWhile (admitP c)).filterMap
    (fun p => (admitKey alg (readyProc p)).map (fun k => (k, readyProc p)))

/-- Total remaining work of a list of processes, truncated at zero. -/
def wtList (l : List Process) : Nat := (l.map (fun p => p.remaining.toNat)).sum

/-- Remaining work held in the heap-scheduler state. -/
def wt (st : HState) : Nat :=
  wtList st.pending + wtList (st.ready.map Prod.snd) + wtList st.running.toList

/-- Clock distance to the last arrival of a pending list. -/
def gapAux (l : List Process) (c : Nat) : Nat :=
  match l.getLast? with
  | some p => (p.arrival - (c : Int)).toNat
  | none => 0

/-- Clock distance to the last pending arrival. -/
def gapH (st : HState) : Nat := gapAux st.pending st.clock

/-- Termination measure of the heap scheduling loop. -/
def measureH (st : HState) : Nat := wt st + gapH st

/-- Sum of a multiset-valued projection over a list of processes. -/
def projMul {β : Type} (f : Process → Multiset β) (l : List Process) : Multiset β :=
  (l.map f).sum

/-- Sum of a multiset-valued projection over every process record held
anywhere in a heap-scheduler state. -/
def projOf {β : Type} (f : Process → Multiset β) (st : HState) : Multiset β :=
  projMul f st.pending + projMul f (st.ready.map Prod.snd) +
    projMul f st.running.toList + projMul f st.completed

/-- The multiset of pids held anywhere in a heap-scheduler state. -/
def pidsOf (st : HState) : Multiset String :=
  projOf (fun p => {p.pid}) st

/-- The multiset of all executed ticks recorded anywhere in a
heap-scheduler state. -/
def histsOf (st : HState) : Multiset ℕ :=
  projOf (fun p => Multiset.ofList p.executionHistory) st

/-- Positive remaining time everywhere, plus sortedness of the un-admitted
suffix: the invariant driving termination of the heap loop. -/
def InvT (st : HState) : Prop :=
  (∀ p ∈ st.pending, 1 ≤ p.remaining) ∧
  (∀ kp ∈ st.ready, 1 ≤ kp.2.remaining) ∧
  (∀ r, st.running = some r → 1 ≤ r.remaining) ∧
  st.pending.Sorted arrivalLE

/-- Tick accounting: the recorded execution ticks are pairwise distinct,
all lie below the clock, and together with the idle ticks account for
every elapsed tick. -/
def InvHist (st : HState) : Prop :=
  (histsOf st).Nodup ∧ (∀ t ∈ histsOf st, t < st.clock) ∧
  Multiset.card (histsOf st) + st.idleTime = st.clock

/-- Sum of a multiset-valued projection over every process record held
anywhere in a round-robin state. -/
def projOfR {β : Type} (f : Process → Multiset β) (st : RState) : Multiset β :=
  projMul f st.pending + projMul f st.queue + projMul f st.completed

def pidsOfR (st : RState) : Multiset String :=
  projOfR (fun p => {p.pid}) st

def histsOfR (st : RState) : Multiset ℕ :=
  projOfR (fun p => Multiset.ofList p.executionHistory) st

/-- Remaining work and termination measure of the round-robin loop. -/
def wtR (st : RState) : Nat := wtList st.pending + wtList st.queue

def gapR (st : RState) : Nat := gapAux st.pending st.clock

def measureR (st : RState) : Nat := wtR st + gapR st

def InvTR (st : RState) : Prop :=
  (∀ p ∈ st.pending, 1 ≤ p.remaining) ∧
  (∀ p ∈ st.queue, 1 ≤ p.remaining) ∧
  st.pending.Sorted arrivalLE

def InvHistR (st : RState) : Prop :=
  (histsOfR st).Nodup ∧ (∀ t ∈ histsOfR st, t < st.clock) ∧
  Multiset.card (histsOfR st) + st.idleTime = st.clock

end HeapSched

namespace HeapSched

/-! ### Concrete scenario inputs used by the claims -/

/-- The spec's preemptive-priority scenario:
`P1(arrival=0, burst=4, priority=2)`, `P2(arrival=1, burst=3, priority=3)`. -/
def prioDemo : List Process :=
  [mkProcess "P1" 0 4 2 "CPU", mkProcess "P2" 1 3 3 "I/O"]

/-- The spec's round-robin scenario:
`P1(arrival=0, burst=5)`, `P2(arrival=1, burst=3)`, quantum 2. -/
def rrDemo : List Process :=
  [mkProcess "P1" 0 5 1 "CPU", mkProcess "P2" 1 3 1 "CPU"]

/-- C1: the claim asserts `turnaround == waiting + burst` for every completed
process of every algorithm/mode.  On `scheduler_code.py` (which computes
`waiting = start - arrival`), the preemptive-priority run over `prioDemo`
completes P1 with `turnaround = 7`, `waiting = 0`, `burst = 4`, so
`turnaround ≠ waiting + burst`: the claim (and the spec's canonical
history-based formula) is violated by that file's `calculate_metrics`. -/
theorem c1_waiting_formula_violated :
    (scheduleV1 prioDemo "preemptive" "priority").map
        (fun st => st.completed.map (fun p => (p.pid, p.turnaround, p.waiting, p.burst)))
      = some [("P2", 3, 0, 3), ("P1", 7, 0, 4)] ∧
    ¬ ((7 : Int) = 0 + 4) := by
  exact ⟨by decide, by decide⟩

/-- C2 counterexample: on the code, running RR (quantum 2) over `rrDemo`
dispatches the expired P1 again at tick 2 (the slice-expired process is
re-enqueued before the arrivals of its slice are admitted), and P2 first
executes at tick 4: P2's execution history is `[4, 5, 7]`, and no completed
process named P2 ever executes tick 2 — contradicting the claimed trace in
which P2 executes ticks 2 and 3. -/
theorem c2_counterexample :
    (scheduleV2 rrDemo "preemptive" "rr" 2).map
        (fun r => r.completed.map (fun p => (p.pid, p.start, p.executionHistory)))
      = some [("P1", some 0, [0, 1, 2, 3, 6]), ("P2", some 4, [4, 5, 7])] ∧
    (scheduleV2 rrDemo "preemptive" "rr" 2).map
        (fun r => r.completed.countP
          (fun p => p.pid == "P2" && p.executionHistory.contains 2))
      = some 0 := by
  exact ⟨by decide, by decide⟩

/-- C2 amended: the actual RR trace over `rrDemo` with quantum 2.
P1 runs ticks 0-1 (remaining 5 to 3); the expired P1 is re-enqueued at the
tail before P2's arrival is appended, so P1 runs ticks 2-3 (remaining 3 to 1);
P2 first runs at ticks 4-5, P1 finishes its last tick at 6 (finish 7), and
P2 finishes at 8; with waiting = turnaround - executed ticks. -/
theorem c2_amended :
    (scheduleV2 rrDemo "preemptive" "rr" 2).map
        (fun r => (r.completed.map
            (fun p => (p.pid, p.start, p.finish, p.executionHistory,
                       p.waiting, p.turnaround)),
          r.clock, r.idleTime, r.contextSwitches))
      = some ([("P1", some 0, some 7, [0, 1, 2, 3, 6], 2, 7),
               ("P2", some 4, some 8, [4, 5, 7], 4, 7)], 8, 0, 5) := by
  rfl

/-- C3 counterexample: with the unknown algorithm string `"mlfq"` both
schedulers return normally (a `some` result — the engine raises nothing and
no ConfigurationError exists in the code) with an empty completed list: the
lone process is admitted, never enqueued, and the run ends after one idle
tick. -/
theorem c3_counterexample :
    (scheduleV1 [mkProcess "P1" 0 3 1 "CPU"] "preemptive" "mlfq").map
        (fun st => (st.completed, st.clock, st.idleTime))
      = some ([], 1, 1) ∧
    (scheduleV2 [mkProcess "P1" 0 3 1 "CPU"] "preemptive" "mlfq" 2).map
        (fun r => (r.completed, r.clock, r.idleTime))
      = some ([], 1, 1) := by
  exact ⟨by decide, by decide⟩

/-- C8 counterexample: after a completed run over the empty process list the
reported CPU utilization is 0 while `idle_time = 0`, so
`cpu_utilization == 100 iff idle_time == 0` fails (the metric computation is
skipped because the total clock is 0). -/
theorem c8_counterexample :
    (scheduleV1 [] "preemptive" "priority").map
        (fun st => (st.cpuUtilization, st.idleTime))
      = some (0, 0) ∧
    (0 : ℚ) ≠ 100 := by
  exact ⟨by decide, by decide⟩

/-- C10: `schedule()` over the empty process list terminates immediately:
the loop body never runs, so the returned state has `completed = []`,
`clock = 0`, and all aggregate metrics (`cpu_utilization`, `throughput`,
`idle_time`, `context_switches`) at their initial value 0 — the system
metric computation is skipped because the total elapsed time is 0. -/
theorem c10_empty_run :
    ∀ mode alg : String, scheduleV1 [] mode alg = some
      { pending := [], ready := [], running := none, clock := 0
        completed := [], idleTime := 0, contextSwitches := 0, lastPid := none
        dispatchLog := [], cpuUtilization := 0, throughput := 0 } := by
  intro mode alg
  rfl

end HeapSched

namespace HeapSched

/-- C4 counterexample: constructing a process record with empty id,
negative arrival, non-positive burst and non-positive priority succeeds
(the constructor performs no validation and raises nothing), and
constructing a round-robin scheduler with `quantum = 0` succeeds and
stores the invalid quantum. -/
theorem c4_counterexample :
    mkProcess "" (-1) 0 0 "CPU" =
      { pid := "", arrival := -1, burst := 0, priority := 0
        processType := "CPU", remaining := 0, start := none, finish := none
        waiting := 0, turnaround := 0, responseTime := none
        contextSwitches := 0, executionHistory := [], state := "NEW" } ∧
    (mkSchedulerV2 [mkProcess "P1" 0 1 1 "CPU"] "preemptive" "rr" 0).quantum = 0 := by
  exact ⟨rfl, rfl⟩

/-- C4 amended: construction performs no validation at all — for every
argument tuple (including `burst ≤ 0`, `arrival < 0`, `priority ≤ 0`, empty
id), `Process.__init__` succeeds and just stores the fields; similarly the
RR scheduler stores any `quantum`.  Rejection happens only in the
interactive CLI input loops, which re-prompt instead of raising; no
ValidationError exists in the code. -/
theorem c4_amended :
    (∀ pid ptype : String, ∀ a b pr : Int,
      mkProcess pid a b pr ptype =
        { pid := pid, arrival := a, burst := b, priority := pr
          processType := ptype, remaining := b, start := none, finish := none
          waiting := 0, turnaround := 0, responseTime := none
          contextSwitches := 0, executionHistory := [], state := "NEW" }) ∧
    (∀ ps mode algorithm q, (mkSchedulerV2 ps mode algorithm q).quantum = q) := by
  exact ⟨fun _ _ _ _ _ => rfl, fun _ _ _ _ => rfl⟩

/-! ### Order facts about heap keys -/

theorem keyLt_irrefl (a : Key) : ¬ keyLt a a := by
  simp [keyLt]

theorem keyLt_trans {a b c : Key} (h1 : keyLt a b) (h2 : keyLt b c) : keyLt a c := by
  rcases h1 with h1 | ⟨e1, h1⟩ <;> rcases h2 with h2 | ⟨e2, h2⟩
  · exact Or.inl (lt_trans h1 h2)
  · exact Or.inl (e2 ▸ h1)
  · exact Or.inl (e1 ▸ h2)
  · refine Or.inr ⟨e1.trans e2, ?_⟩
    rcases h1 with h1 | ⟨f1, h1⟩ <;> rcases h2 with h2 | ⟨f2, h2⟩
    · exact Or.inl (lt_trans h1 h2)
    · exact Or.inl (f2 ▸ h1)
    · exact Or.inl (f1 ▸ h2)
    · exact Or.inr ⟨f1.trans f2, lt_trans h1 h2⟩

theorem keyLt_asymm {a b : Key} (h : keyLt a b) : ¬ keyLt b a := by
  intro h'
  exact keyLt_irrefl a (keyLt_trans h h')

theorem keyLt_of_ne_not_lt {a b : Key} (hne : a ≠ b) (h : ¬ keyLt b a) : keyLt a b := by
  rcases lt_trichotomy a.1 b.1 with h1 | h1 | h1
  · exact Or.inl h1
  · rcases lt_trichotomy a.2.1 b.2.1 with h2 | h2 | h2
    · exact Or.inr ⟨h1, Or.inl h2⟩
    · rcases lt_trichotomy a.2.2 b.2.2 with h3 | h3 | h3
      · exact Or.inr ⟨h1, Or.inr ⟨h2, h3⟩⟩
      · exact absurd (Prod.ext h1 (Prod.ext h2 h3)) hne
      · exact absurd (Or.inr ⟨h1.symm, Or.inr ⟨h2.symm, h3⟩⟩) h
    · exact absurd (Or.inr ⟨h1.symm, Or.inl h2⟩) h
  · exact absurd (Or.inl h1) h

/-! ### `popMin` is exactly "remove a minimum" -/

theorem popMin_cons_some (x : Key × Process) (xs : List (Key × Process)) :
    ∃ m rest, popMin (x :: xs) = some (m, rest) := by
  cases h : popMin xs with
  | none => exact ⟨x, [], by simp [popMin, h]⟩
  | some mr =>
    by_cases hk : keyLt mr.1.1 x.1
    · exact ⟨mr.1, x :: mr.2, by simp [popMin, h, hk]⟩
    · exact ⟨x, xs, by simp [popMin, h, hk]⟩

theorem popMin_eq_none {l : List (Key × Process)} (h : popMin l = none) : l = [] := by
  cases l with
  | nil => rfl
  | cons x xs =>
    obtain ⟨m, rest, hm⟩ := popMin_cons_some x xs
    rw [hm] at h
    cases h

theorem popMin_perm {l : List (Key × Process)} {m rest}
    (h : popMin l = some (m, rest)) : l.Perm (m :: rest) := by
  induction l generalizing m rest with
  | nil => simp [popMin] at h
  | cons x xs ih =>
    cases hx : popMin xs with
    | none =>
      have hnil := popMin_eq_none hx
      subst hnil
      simp [popMin] at h
      obtain ⟨h1, h2⟩ := h
      subst h1; subst h2
      exact List.Perm.refl _
    | some mr =>
      obtain ⟨m', rest'⟩ := mr
      by_cases hk : keyLt m'.1 x.1
      · simp only [popMin, hx, if_pos hk, Option.some.injEq, Prod.mk.injEq] at h
        obtain ⟨h1, h2⟩ := h
        subst h1; subst h2
        exact (List.Perm.cons x (ih hx)).trans (List.Perm.swap _ x rest')
      · simp only [popMin, hx, if_neg hk, Option.some.injEq, Prod.mk.injEq] at h
        obtain ⟨h1, h2⟩ := h
        subst h1; subst h2
        exact List.Perm.refl _

theorem popMin_min {l : List (Key × Process)} {m rest}
    (h : popMin l = some (m, rest)) : ∀ y ∈ l, ¬ keyLt y.1 m.1 := by
  induction l generalizing m rest with
  | nil => simp [popMin] at h
  | cons x xs ih =>
    cases hx : popMin xs with
    | none =>
      have hnil := popMin_eq_none hx
      subst hnil
      simp [popMin] at h
      obtain ⟨h1, _⟩ := h
      subst h1
      intro y hy
      simp at hy
      subst hy
      exact keyLt_irrefl _
    | some mr =>
      obtain ⟨m', rest'⟩ := mr
      by_cases hk : keyLt m'.1 x.1
      · simp only [popMin, hx, if_pos hk, Option.some.injEq, Prod.mk.injEq] at h
        obtain ⟨h1, _⟩ := h
        subst h1
        intro y hy
        rcases List.mem_cons.1 hy with hy | hy
        · subst hy; exact keyLt_asymm hk
        · exact ih hx y hy
      · simp only [popMin, hx, if_neg hk, Option.some.injEq, Prod.mk.injEq] at h
        obtain ⟨h1, _⟩ := h
        subst h1
        intro y hy
        rcases List.mem_cons.1 hy with hy | hy
        · subst hy; exact keyLt_irrefl _
        · intro hcon
          rcases eq_or_ne y.1 m'.1 with he | hne
          · exact hk (he ▸ hcon)
          · have h1 : keyLt m'.1 y.1 :=
              keyLt_of_ne_not_lt (Ne.symm hne) (ih hx y hy)
            exact hk (keyLt_trans h1 hcon)

end HeapSched

namespace HeapSched

/-! ### Projections of the record transformers -/

@[simp] theorem readyProc_pid (p : Process) : (readyProc p).pid = p.pid := rfl
@[simp] theorem readyProc_arrival (p : Process) : (readyProc p).arrival = p.arrival := rfl
@[simp] theorem readyProc_burst (p : Process) : (readyProc p).burst = p.burst := rfl
@[simp] theorem readyProc_priority (p : Process) : (readyProc p).priority = p.priority := rfl
@[simp] theorem readyProc_remaining (p : Process) : (readyProc p).remaining = p.remaining := rfl
@[simp] theorem readyProc_executionHistory (p : Process) :
    (readyProc p).executionHistory = p.executionHistory := rfl
@[simp] theorem readyProc_start (p : Process) : (readyProc p).start = p.start := rfl

@[simp] theorem preemptedProc_pid (var : Variant) (p : Process) :
    (preemptedProc var p).pid = p.pid := by cases var <;> rfl
@[simp] theorem preemptedProc_arrival (var : Variant) (p : Process) :
    (preemptedProc var p).arrival = p.arrival := by cases var <;> rfl
@[simp] theorem preemptedProc_remaining (var : Variant) (p : Process) :
    (preemptedProc var p).remaining = p.remaining := by cases var <;> rfl
@[simp] theorem preemptedProc_executionHistory (var : Variant) (p : Process) :
    (preemptedProc var p).executionHistory = p.executionHistory := by cases var <;> rfl

@[simp] theorem dispatchedProc_pid (var : Variant) (c : Nat) (p : Process) :
    (dispatchedProc var c p).pid = p.pid := by
  cases h : p.start <;> cases var <;> simp [dispatchedProc, h]
@[simp] theorem dispatchedProc_remaining (var : Variant) (c : Nat) (p : Process) :
    (dispatchedProc var c p).remaining = p.remaining := by
  cases h : p.start <;> cases var <;> simp [dispatchedProc, h]
@[simp] theorem dispatchedProc_executionHistory (var : Variant) (c : Nat) (p : Process) :
    (dispatchedProc var c p).executionHistory = p.executionHistory := by
  cases h : p.start <;> cases var <;> simp [dispatchedProc, h]

@[simp] theorem tickProc_pid (c : Nat) (p : Process) : (tickProc c p).pid = p.pid := rfl
@[simp] theorem tickProc_remaining (c : Nat) (p : Process) :
    (tickProc c p).remaining = p.remaining - 1 := rfl
@[simp] theorem tickProc_executionHistory (c : Nat) (p : Process) :
    (tickProc c p).executionHistory = p.executionHistory ++ [c] := rfl

@[simp] theorem applyMetrics_pid (var : Variant) (p : Process) :
    (applyMetrics var p).pid = p.pid := by
  cases var <;> cases hs : p.start <;> cases hf : p.finish <;>
    simp [applyMetrics, calculateMetricsV1, calculateMetricsV2, hs, hf]
@[simp] theorem applyMetrics_executionHistory (var : Variant) (p : Process) :
    (applyMetrics var p).executionHistory = p.executionHistory := by
  cases var <;> cases hs : p.start <;> cases hf : p.finish <;>
    simp [applyMetrics, calculateMetricsV1, calculateMetricsV2, hs, hf]
@[simp] theorem applyMetrics_remaining (var : Variant) (p : Process) :
    (applyMetrics var p).remaining = p.remaining := by
  cases var <;> cases hs : p.start <;> cases hf : p.finish <;>
    simp [applyMetrics, calculateMetricsV1, calculateMetricsV2, hs, hf]

/-! ### The admission sweep as takeWhile/dropWhile -/

theorem admitKey_valid {alg : String} (h : ValidAlg alg) (p : Process) :
    ∃ k, admitKey alg p = some k := by
  rcases h with h | h | h <;> subst h
  · exact ⟨_, by rw [admitKey, if_pos rfl]⟩
  · exact ⟨_, by rw [admitKey, if_neg (by decide), if_pos rfl]⟩
  · exact ⟨_, by rw [admitKey, if_neg (by decide), if_neg (by decide), if_pos rfl]⟩

theorem admitKey_unknown {alg : String} (h : ¬ ValidAlg alg) (p : Process) :
    admitKey alg p = none := by
  rw [admitKey, if_neg, if_neg, if_neg]
  · exact fun hc => h (Or.inr (Or.inr hc))
  · exact fun hc => h (Or.inr (Or.inl hc))
  · exact fun hc => h (Or.inl hc)

theorem admitLoop_eq (alg : String) (c : Nat) :
    ∀ (ps : List Process) (heap : List (Key × Process)),
      admitLoop alg c ps heap =
        (heap ++ admitEntries alg c ps, ps.dropWhile (admitP c)) := by
  intro ps
  induction ps with
  | nil => intro heap; simp [admitLoop, admitEntries]
  | cons p rest ih =>
    intro heap
    by_cases hp : p.arrival ≤ (c : Int)
    · have hb : admitP c p = true := by simp [admitP, hp]
      rw [admitLoop, if_pos hp]
      dsimp only
      cases hk : admitKey alg (readyProc p) with
      | none =>
        dsimp only
        rw [ih heap]
        simp only [admitEntries, List.takeWhile_cons, hb, if_pos, List.dropWhile_cons,
          List.filterMap_cons, hk]
        simp
      | some k =>
        dsimp only
        rw [ih (heap ++ [(k, readyProc p)])]
        simp only [admitEntries, List.takeWhile_cons, hb, if_pos, List.dropWhile_cons,
          List.filterMap_cons, hk]
        simp
    · have hb : admitP c p = false := by simp [admitP, hp]
      rw [admitLoop, if_neg hp]
      simp only [admitEntries, List.takeWhile_cons, hb, List.dropWhile_cons]
      simp

theorem admitEntries_map_snd {alg : String} (h : ValidAlg alg) (c : Nat)
    (ps : List Process) :
    (admitEntries alg c ps).map Prod.snd = (ps.takeWhile (admitP c)).map readyProc := by
  unfold admitEntries
  induction ps.takeWhile (admitP c) with
  | nil => rfl
  | cons q qs ih =>
    obtain ⟨k, hk⟩ := admitKey_valid h (readyProc q)
    simp only [List.filterMap_cons, hk, Option.map_some, List.map_cons]
    simpa using ih

theorem admitEntries_unknown {alg : String} (h : ¬ ValidAlg alg) (c : Nat)
    (ps : List Process) : admitEntries alg c ps = [] := by
  unfold admitEntries
  refine List.filterMap_eq_nil_iff.2 (fun p _ => ?_)
  rw [admitKey_unknown h]
  rfl

theorem mem_getLast? {α : Type} : ∀ {l : List α} {x : α}, l.getLast? = some x → x ∈ l := by
  intro l
  induction l with
  | nil => intro x h; cases h
  | cons a as ih =>
    intro x h
    cases as with
    | nil => simp [List.getLast?] at h; subst h; exact List.mem_singleton.2 rfl
    | cons b bs =>
      rw [List.getLast?_cons_cons] at h
      exact List.mem_cons_of_mem a (ih h)

theorem dropWhile_head_false {α : Type} (p : α → Bool) :
    ∀ {l : List α} {x : α} {xs : List α}, l.dropWhile p = x :: xs → p x = false := by
  intro l
  induction l with
  | nil => intro x xs h; cases h
  | cons a as ih =>
    intro x xs h
    rw [List.dropWhile_cons] at h
    by_cases ha : p a = true
    · rw [if_pos ha] at h; exact ih h
    · rw [if_neg ha] at h
      cases h
      exact eq_false_of_ne_true ha

theorem dropWhile_getLast? {α : Type} (p : α → Bool) (l : List α)
    (h : l.dropWhile p ≠ []) : (l.dropWhile p).getLast? = l.getLast? := by
  conv_rhs => rw [← List.takeWhile_append_dropWhile p l]
  rw [List.getLast?_append_of_ne_nil _ h]

theorem sorted_mem_takeWhile {c : Nat} :
    ∀ {l : List Process}, l.Sorted arrivalLE → ∀ {a : Process}, a ∈ l →
      a.arrival ≤ (c : Int) → a ∈ l.takeWhile (admitP c) := by
  intro l
  induction l with
  | nil => intro _ a ha; cases ha
  | cons x xs ih =>
    intro hs a ha hc
    rcases List.mem_cons.1 ha with ha | ha
    · subst ha
      rw [List.takeWhile_cons, if_pos (by simp [admitP, hc])]
      exact List.mem_cons_self _ _
    · have hxa : arrivalLE x a := (List.sorted_cons.1 hs).1 a ha
      have hx : x.arrival ≤ (c : Int) := le_trans hxa hc
      rw [List.takeWhile_cons, if_pos (by simp [admitP, hx])]
      exact List.mem_cons_of_mem x (ih (List.sorted_cons.1 hs).2 ha hc)

theorem mem_dropWhile_of_not {c : Nat} {l : List Process} {a : Process}
    (ha : a ∈ l) (hc : ¬ a.arrival ≤ (c : Int)) : a ∈ l.dropWhile (admitP c) := by
  have := List.takeWhile_append_dropWhile (admitP c) l
  rcases (List.mem_append.1 (this ▸ ha)) with h | h
  · have := List.mem_takeWhile_imp h
    rw [admitP, decide_eq_true_eq] at this
    exact absurd this hc
  · exact h

end HeapSched

namespace HeapSched

/-! ### Phase characterisations -/

@[simp] theorem phaseAdmit_clock (alg : String) (st : HState) :
    (phaseAdmit alg st).clock = st.clock := rfl
@[simp] theorem phaseAdmit_running (alg : String) (st : HState) :
    (phaseAdmit alg st).running = st.running := rfl
@[simp] theorem phaseAdmit_completed (alg : String) (st : HState) :
    (phaseAdmit alg st).completed = st.completed := rfl
@[simp] theorem phaseAdmit_idleTime (alg : String) (st : HState) :
    (phaseAdmit alg st).idleTime = st.idleTime := rfl
@[simp] theorem phaseAdmit_dispatchLog (alg : String) (st : HState) :
    (phaseAdmit alg st).dispatchLog = st.dispatchLog := rfl

theorem phaseAdmit_ready (alg : String) (st : HState) :
    (phaseAdmit alg st).ready = st.ready ++ admitEntries alg st.clock st.pending := by
  unfold phaseAdmit
  rw [admitLoop_eq]

theorem phaseAdmit_pending (alg : String) (st : HState) :
    (phaseAdmit alg st).pending = st.pending.dropWhile (admitP st.clock) := by
  unfold phaseAdmit
  rw [admitLoop_eq]

theorem shouldPreempt_alg {alg : String} {heap : List (Key × Process)} {r : Process}
    (h : shouldPreemptF alg heap r = true) : alg = "priority" ∨ alg = "sjf" := by
  unfold shouldPreemptF at h
  cases hm : findMinKey heap with
  | none => rw [hm] at h; cases h
  | some k =>
    rw [hm] at h
    dsimp only at h
    by_cases h1 : alg = "priority"
    · exact Or.inl h1
    · by_cases h2 : alg = "sjf"
      · exact Or.inr h2
      · rw [if_neg h1, if_neg h2] at h; cases h

theorem phasePreempt_cases (var : Variant) (mode alg : String) (st : HState) :
    phasePreempt var mode alg st = st ∨
    ∃ r k, st.running = some r ∧
      admitKey alg (preemptedProc var r) = some k ∧
      phasePreempt var mode alg st =
        { st with ready := st.ready ++ [(k, preemptedProc var r)]
                  running := none
                  contextSwitches := st.contextSwitches + 1 } := by
  unfold phasePreempt
  cases hr : st.running with
  | none => exact Or.inl rfl
  | some r =>
    dsimp only
    by_cases hc : mode = "preemptive" ∧ st.ready ≠ [] ∧ shouldPreemptF alg st.ready r = true
    · rw [if_pos hc]
      have halg := shouldPreempt_alg hc.2.2
      have hvalid : ValidAlg alg := by
        rcases halg with h | h
        · exact Or.inl h
        · exact Or.inr (Or.inl h)
      obtain ⟨k, hk⟩ := admitKey_valid hvalid (preemptedProc var r)
      refine Or.inr ⟨r, k, rfl, hk, ?_⟩
      dsimp only
      rw [hk]
    · rw [if_neg hc]
      exact Or.inl rfl

theorem phaseDispatch_cases (var : Variant) (st : HState) :
    (phaseDispatch var st = st ∧ (st.running ≠ none ∨ st.ready = [])) ∨
    ∃ kp rest, st.running = none ∧ popMin st.ready = some (kp, rest) ∧
      phaseDispatch var st =
        { st with ready := rest
                  running := some (dispatchedProc var st.clock kp.2)
                  contextSwitches :=
                    match st.lastPid with
                    | some lp =>
                        if lp ≠ (dispatchedProc var st.clock kp.2).pid then
                          st.contextSwitches + 1
                        else st.contextSwitches
                    | none => st.contextSwitches
                  lastPid :=
                    match var with
                    | .v1 => st.lastPid
                    | .v2 => some (dispatchedProc var st.clock kp.2).pid
                  dispatchLog := st.dispatchLog ++ [(dispatchedProc var st.clock kp.2).pid] } := by
  unfold phaseDispatch
  cases hr : st.running with
  | some r => exact Or.inl ⟨rfl, Or.inl (by simp)⟩
  | none =>
    cases hp : popMin st.ready with
    | none => exact Or.inl ⟨rfl, Or.inr (popMin_eq_none hp)⟩
    | some mr =>
      obtain ⟨kp, rest⟩ := mr
      exact Or.inr ⟨kp, rest, rfl, rfl, rfl⟩

/-- The `last_process` value after the execution phase. -/
def execLastPid : Variant → Option String → Process → Option String
  | .v1, _, r => some r.pid
  | .v2, lp, _ => lp

theorem phaseExec_none (var : Variant) {st : HState} (h : st.running = none) :
    phaseExec var st = { st with clock := st.clock + 1, idleTime := st.idleTime + 1 } := by
  unfold phaseExec
  rw [h]

theorem phaseExec_some_run (var : Variant) {st : HState} {r : Process}
    (h : st.running = some r) (hr : ¬ r.remaining - 1 = 0) :
    phaseExec var st =
      { st with running := some (tickProc st.clock r), clock := st.clock + 1
                lastPid := execLastPid var st.lastPid r } := by
  unfold phaseExec
  rw [h]
  dsimp only
  split
  · next hc => exact absurd (by simpa using hc) hr
  · cases var <;> rfl

theorem phaseExec_some_done (var : Variant) {st : HState} {r : Process}
    (h : st.running = some r) (hr : r.remaining - 1 = 0) :
    phaseExec var st =
      { st with running := none, clock := st.clock + 1
                completed := st.completed ++
                  [applyMetrics var
                    { tickProc st.clock r with
                        finish := some (st.clock + 1), state := "TERMINATED" }]
                lastPid := execLastPid var st.lastPid r } := by
  unfold phaseExec
  rw [h]
  dsimp only
  split
  · cases var <;> rfl
  · next hc => exact absurd (by simpa using hr) hc

end HeapSched

namespace HeapSched

/-! ### Work and gap arithmetic -/

@[simp] theorem wtList_nil : wtList [] = 0 := rfl

@[simp] theorem wtList_cons (p : Process) (l : List Process) :
    wtList (p :: l) = p.remaining.toNat + wtList l := by
  simp [wtList]

theorem wtList_append (l₁ l₂ : List Process) :
    wtList (l₁ ++ l₂) = wtList l₁ + wtList l₂ := by
  simp [wtList]

theorem wtList_map_readyProc (l : List Process) :
    wtList (l.map readyProc) = wtList l := by
  unfold wtList
  rw [List.map_map]
  rfl

theorem wtList_perm {l₁ l₂ : List Process} (h : l₁.Perm l₂) : wtList l₁ = wtList l₂ :=
  (h.map _).sum_eq

theorem le_wtList_of_mem {l : List Process} {p : Process} (h : p ∈ l) :
    p.remaining.toNat ≤ wtList l :=
  List.single_le_sum (fun _ _ => Nat.zero_le _) _ (List.mem_map_of_mem _ h)

theorem gapAux_mono {l : List Process} {c c' : Nat} (h : c ≤ c') :
    gapAux l c' ≤ gapAux l c := by
  unfold gapAux
  cases l.getLast? with
  | none => exact le_refl _
  | some p => dsimp only; omega

theorem gapAux_dropWhile_le (p : Process → Bool) (l : List Process) (c : Nat) :
    gapAux (l.dropWhile p) c ≤ gapAux l c := by
  cases h : l.dropWhile p with
  | nil => simp [gapAux, h]
  | cons q qs =>
    rw [← h]
    have hl : (l.dropWhile p).getLast? = l.getLast? :=
      dropWhile_getLast? p l (by rw [h]; exact List.cons_ne_nil q qs)
    have heq : gapAux (l.dropWhile p) c = gapAux l c := by
      unfold gapAux; rw [hl]
    exact heq.le

theorem gapAux_pos {l : List Process} {q : Process} {qs : List Process} {c : Nat}
    (hl : l = q :: qs) (hs : l.Sorted arrivalLE) (hq : ¬ q.arrival ≤ (c : Int)) :
    1 ≤ gapAux l c := by
  subst hl
  cases hz : (q :: qs).getLast? with
  | none => simp at hz
  | some z =>
    have hzmem : z ∈ q :: qs := mem_getLast? hz
    have hqz : q.arrival ≤ z.arrival := by
      rcases List.mem_cons.1 hzmem with h | h
      · subst h; exact le_refl _
      · exact (List.sorted_cons.1 hs).1 z h
    unfold gapAux
    rw [hz]
    dsimp only
    omega

/-! ### Invariant and measure through the phases -/

theorem InvT_phaseAdmit {alg : String} (hval : ValidAlg alg) {st : HState}
    (h : InvT st) : InvT (phaseAdmit alg st) := by
  obtain ⟨hp, hr, hrun, hsort⟩ := h
  refine ⟨?_, ?_, ?_, ?_⟩
  · intro p hmem
    rw [phaseAdmit_pending] at hmem
    exact hp p ((List.dropWhile_sublist _).mem hmem)
  · intro kp hmem
    rw [phaseAdmit_ready] at hmem
    rcases List.mem_append.1 hmem with hmem | hmem
    · exact hr kp hmem
    · have h2 : kp.2 ∈ (admitEntries alg st.clock st.pending).map Prod.snd :=
        List.mem_map_of_mem _ hmem
      rw [admitEntries_map_snd hval] at h2
      obtain ⟨q, hq, hq2⟩ := List.mem_map.1 h2
      have hqp : q ∈ st.pending := ((List.takeWhile_sublist _).mem hq)
      rw [← hq2]
      simpa using hp q hqp
  · intro r hrr
    rw [phaseAdmit_running] at hrr
    exact hrun r hrr
  · rw [phaseAdmit_pending]
    exact hsort.sublist (List.dropWhile_sublist _)

theorem wt_phaseAdmit {alg : String} (hval : ValidAlg alg) (st : HState) :
    wt (phaseAdmit alg st) = wt st := by
  unfold wt
  rw [phaseAdmit_pending, phaseAdmit_ready, phaseAdmit_running, List.map_append,
    wtList_append, admitEntries_map_snd hval, wtList_map_readyProc]
  have hsplit : wtList st.pending =
      wtList (st.pending.takeWhile (admitP st.clock)) +
      wtList (st.pending.dropWhile (admitP st.clock)) := by
    rw [← wtList_append, List.takeWhile_append_dropWhile]
  omega

theorem gapH_phaseAdmit (alg : String) (st : HState) :
    gapH (phaseAdmit alg st) ≤ gapH st := by
  unfold gapH
  rw [phaseAdmit_pending, phaseAdmit_clock]
  exact gapAux_dropWhile_le _ _ _

theorem InvT_phasePreempt (var : Variant) (mode alg : String) {st : HState}
    (h : InvT st) : InvT (phasePreempt var mode alg st) := by
  rcases phasePreempt_cases var mode alg st with hc | ⟨r, k, hrun, _, hc⟩
  · rw [hc]; exact h
  · rw [hc]
    obtain ⟨hp, hr, hrunInv, hsort⟩ := h
    refine ⟨hp, ?_, ?_, hsort⟩
    · intro kp hmem
      rcases List.mem_append.1 hmem with hmem | hmem
      · exact hr kp hmem
      · rcases List.mem_singleton.1 hmem with rfl
        simpa using hrunInv r hrun
    · intro r' hr'
      cases hr'

theorem wt_phasePreempt (var : Variant) (mode alg : String) (st : HState) :
    wt (phasePreempt var mode alg st) = wt st := by
  rcases phasePreempt_cases var mode alg st with hc | ⟨r, k, hrun, _, hc⟩
  · rw [hc]
  · rw [hc]
    unfold wt
    dsimp only
    rw [List.map_append, wtList_append, hrun]
    simp [wtList]
    omega

theorem pending_phasePreempt (var : Variant) (mode alg : String) (st : HState) :
    (phasePreempt var mode alg st).pending = st.pending := by
  rcases phasePreempt_cases var mode alg st with hc | ⟨r, k, _, _, hc⟩ <;> rw [hc]

theorem clock_phasePreempt (var : Variant) (mode alg : String) (st : HState) :
    (phasePreempt var mode alg st).clock = st.clock := by
  rcases phasePreempt_cases var mode alg st with hc | ⟨r, k, _, _, hc⟩ <;> rw [hc]

theorem completed_phasePreempt (var : Variant) (mode alg : String) (st : HState) :
    (phasePreempt var mode alg st).completed = st.completed := by
  rcases phasePreempt_cases var mode alg st with hc | ⟨r, k, _, _, hc⟩ <;> rw [hc]

theorem idleTime_phasePreempt (var : Variant) (mode alg : String) (st : HState) :
    (phasePreempt var mode alg st).idleTime = st.idleTime := by
  rcases phasePreempt_cases var mode alg st with hc | ⟨r, k, _, _, hc⟩ <;> rw [hc]

theorem InvT_phaseDispatch (var : Variant) {st : HState} (h : InvT st) :
    InvT (phaseDispatch var st) := by
  rcases phaseDispatch_cases var st with ⟨hc, _⟩ | ⟨kp, rest, hrun, hpop, hc⟩
  · rw [hc]; exact h
  · rw [hc]
    obtain ⟨hp, hr, _, hsort⟩ := h
    have hperm := popMin_perm hpop
    refine ⟨hp, ?_, ?_, hsort⟩
    · intro kq hmem
      exact hr kq (hperm.mem_iff.2 (List.mem_cons_of_mem _ hmem))
    · intro r' hr'
      cases hr'
      simpa using hr kp (hperm.mem_iff.2 (List.mem_cons_self _ _))

theorem wt_phaseDispatch (var : Variant) (st : HState) :
    wt (phaseDispatch var st) = wt st := by
  rcases phaseDispatch_cases var st with ⟨hc, _⟩ | ⟨kp, rest, hrun, hpop, hc⟩
  · rw [hc]
  · rw [hc]
    unfold wt
    dsimp only
    rw [hrun]
    have hperm := wtList_perm ((popMin_perm hpop).map Prod.snd)
    rw [List.map_cons, wtList_cons] at hperm
    simp only [Option.toList_some, Option.toList_none, wtList_cons, wtList_nil,
      dispatchedProc_remaining]
    omega

theorem pending_phaseDispatch (var : Variant) (st : HState) :
    (phaseDispatch var st).pending = st.pending := by
  rcases phaseDispatch_cases var st with ⟨hc, _⟩ | ⟨kp, rest, _, _, hc⟩ <;> rw [hc]

theorem clock_phaseDispatch (var : Variant) (st : HState) :
    (phaseDispatch var st).clock = st.clock := by
  rcases phaseDispatch_cases var st with ⟨hc, _⟩ | ⟨kp, rest, _, _, hc⟩ <;> rw [hc]

theorem completed_phaseDispatch (var : Variant) (st : HState) :
    (phaseDispatch var st).completed = st.completed := by
  rcases phaseDispatch_cases var st with ⟨hc, _⟩ | ⟨kp, rest, _, _, hc⟩ <;> rw [hc]

theorem idleTime_phaseDispatch (var : Variant) (st : HState) :
    (phaseDispatch var st).idleTime = st.idleTime := by
  rcases phaseDispatch_cases var st with ⟨hc, _⟩ | ⟨kp, rest, _, _, hc⟩ <;> rw [hc]

end HeapSched

namespace HeapSched

/-! ### The execution phase and the composite step -/

theorem clock_phaseExec (var : Variant) (st : HState) :
    (phaseExec var st).clock = st.clock + 1 := by
  unfold phaseExec
  cases st.running with
  | none => rfl
  | some r => dsimp only; split <;> rfl

theorem pending_phaseExec (var : Variant) (st : HState) :
    (phaseExec var st).pending = st.pending := by
  unfold phaseExec
  cases st.running with
  | none => rfl
  | some r => dsimp only; split <;> rfl

theorem ready_phaseExec (var : Variant) (st : HState) :
    (phaseExec var st).ready = st.ready := by
  unfold phaseExec
  cases st.running with
  | none => rfl
  | some r => dsimp only; split <;> rfl

theorem dispatchLog_phaseExec (var : Variant) (st : HState) :
    (phaseExec var st).dispatchLog = st.dispatchLog := by
  unfold phaseExec
  cases st.running with
  | none => rfl
  | some r => dsimp only; split <;> rfl

theorem heapStep_def (var : Variant) (mode alg : String) (st : HState) :
    heapStep var mode alg st =
      phaseExec var (phaseDispatch var (phasePreempt var mode alg (phaseAdmit alg st))) := rfl

theorem heapStep_clock (var : Variant) (mode alg : String) (st : HState) :
    (heapStep var mode alg st).clock = st.clock + 1 := by
  rw [heapStep_def, clock_phaseExec, clock_phaseDispatch, clock_phasePreempt, phaseAdmit_clock]

theorem dropWhile_eq_self_of_takeWhile_nil {α : Type} {p : α → Bool} {l : List α}
    (h : l.takeWhile p = []) : l.dropWhile p = l := by
  have h2 := List.takeWhile_append_dropWhile p l
  rw [h] at h2
  simpa using h2

theorem head_not_of_takeWhile_nil {α : Type} {p : α → Bool} {x : α} {xs : List α}
    (h : (x :: xs).takeWhile p = []) : p x = false := by
  rw [List.takeWhile_cons] at h
  by_cases hx : p x = true
  · rw [if_pos hx] at h; cases h
  · exact eq_false_of_ne_true hx

theorem gapAux_succ_lt {l : List Process} {c : Nat} (h : 1 ≤ gapAux l c) :
    gapAux l (c + 1) < gapAux l c := by
  unfold gapAux at h ⊢
  cases hgl : l.getLast? with
  | none =>
    rw [hgl] at h
    dsimp only at h
    omega
  | some p =>
    rw [hgl] at h
    dsimp only at h ⊢
    omega

theorem phaseExec_measure_some (var : Variant) {st3 : HState} {r : Process}
    (h : st3.running = some r) (hrem : 1 ≤ r.remaining) :
    measureH (phaseExec var st3) < measureH st3 := by
  have hgap : gapAux st3.pending (st3.clock + 1) ≤ gapAux st3.pending st3.clock :=
    gapAux_mono (Nat.le_add_right _ 1)
  by_cases hz : r.remaining - 1 = 0
  · rw [phaseExec_some_done var h hz]
    unfold measureH wt gapH
    dsimp only
    rw [h]
    simp only [Option.toList_some, Option.toList_none, wtList_cons, wtList_nil]
    omega
  · rw [phaseExec_some_run var h hz]
    unfold measureH wt gapH
    dsimp only
    rw [h]
    simp only [Option.toList_some, wtList_cons, wtList_nil, tickProc_remaining]
    omega

theorem phaseExec_measure_idle (var : Variant) {st3 : HState} (h : st3.running = none) :
    measureH (phaseExec var st3) = wt st3 + gapAux st3.pending (st3.clock + 1) := by
  rw [phaseExec_none var h]
  unfold measureH wt gapH
  dsimp only

/-- Each loop iteration of a valid-algorithm heap run preserves the
invariant and strictly decreases the termination measure. -/
theorem heapStep_progress (var : Variant) (mode alg : String) (hval : ValidAlg alg)
    {st : HState} (hInv : InvT st) (hnd : ¬ hDone st) :
    InvT (heapStep var mode alg st) ∧
      measureH (heapStep var mode alg st) < measureH st := by
  obtain ⟨st3, hst3⟩ :
      ∃ s, s = phaseDispatch var (phasePreempt var mode alg (phaseAdmit alg st)) :=
    ⟨_, rfl⟩
  have hInv1 : InvT (phaseAdmit alg st) := InvT_phaseAdmit hval hInv
  have hInv2 : InvT (phasePreempt var mode alg (phaseAdmit alg st)) :=
    InvT_phasePreempt _ _ _ hInv1
  have hInv3 : InvT st3 := by rw [hst3]; exact InvT_phaseDispatch _ hInv2
  have hwt3 : wt st3 = wt st := by
    rw [hst3, wt_phaseDispatch, wt_phasePreempt, wt_phaseAdmit hval]
  have hpend3 : st3.pending = st.pending.dropWhile (admitP st.clock) := by
    rw [hst3, pending_phaseDispatch, pending_phasePreempt, phaseAdmit_pending]
  have hclock3 : st3.clock = st.clock := by
    rw [hst3, clock_phaseDispatch, clock_phasePreempt, phaseAdmit_clock]
  have hgap3 : gapAux st3.pending st3.clock ≤ gapAux st.pending st.clock := by
    rw [hpend3, hclock3]
    exact gapAux_dropWhile_le _ _ _
  have hm3 : measureH st3 ≤ measureH st := by
    unfold measureH gapH
    omega
  have hstep : heapStep var mode alg st = phaseExec var st3 := by
    rw [hst3]
    rfl
  have hInvE : InvT (phaseExec var st3) := by
    cases hr3 : st3.running with
    | some r =>
      by_cases hz : r.remaining - 1 = 0
      · rw [phaseExec_some_done var hr3 hz]
        refine ⟨hInv3.1, hInv3.2.1, ?_, hInv3.2.2.2⟩
        intro r' h
        simp at h
      · rw [phaseExec_some_run var hr3 hz]
        refine ⟨hInv3.1, hInv3.2.1, ?_, hInv3.2.2.2⟩
        intro r' h
        have hrem : 1 ≤ r.remaining := hInv3.2.2.1 r hr3
        have hrr : tickProc st3.clock r = r' := by simpa using h
        rw [← hrr]
        simp only [tickProc_remaining]
        omega
    | none =>
      rw [phaseExec_none var hr3]
      exact ⟨hInv3.1, hInv3.2.1, hInv3.2.2.1, hInv3.2.2.2⟩
  refine ⟨by rw [hstep]; exact hInvE, ?_⟩
  rw [hstep]
  cases hr3 : st3.running with
  | some r =>
    have hrem : 1 ≤ r.remaining := hInv3.2.2.1 r hr3
    exact lt_of_lt_of_le (phaseExec_measure_some var hr3 hrem) hm3
  | none =>
    -- idle iteration: nothing was admitted, the heap is empty, nobody runs
    have h23 : st3 = phasePreempt var mode alg (phaseAdmit alg st) ∧
        (phasePreempt var mode alg (phaseAdmit alg st)).ready = [] := by
      rcases phaseDispatch_cases var (phasePreempt var mode alg (phaseAdmit alg st)) with
        ⟨hc, hd⟩ | ⟨kp, rest, hrn, hpp, hc⟩
      · rw [← hst3] at hc
        rcases hd with hd | hd
        · rw [hc] at hr3
          exact absurd hr3 hd
        · exact ⟨hc, hd⟩
      · rw [← hst3] at hc
        rw [hc] at hr3
        cases hr3
    obtain ⟨heq3, hready2⟩ := h23
    have h2 : phasePreempt var mode alg (phaseAdmit alg st) = phaseAdmit alg st := by
      rcases phasePreempt_cases var mode alg (phaseAdmit alg st) with hc | ⟨r, k, _, _, hc⟩
      · exact hc
      · rw [hc] at hready2
        dsimp only at hready2
        exact absurd hready2 (by simp)
    rw [h2] at hready2 heq3
    have hready1 : st.ready ++ admitEntries alg st.clock st.pending = [] := by
      rw [← phaseAdmit_ready alg st]
      exact hready2
    have hentries : admitEntries alg st.clock st.pending = [] :=
      (List.append_eq_nil.1 hready1).2
    have hsready : st.ready = [] := (List.append_eq_nil.1 hready1).1
    have htake : st.pending.takeWhile (admitP st.clock) = [] := by
      have hmap := admitEntries_map_snd hval st.clock st.pending
      rw [hentries] at hmap
      have hlen := congrArg List.length hmap
      simp at hlen
      exact List.eq_nil_of_length_eq_zero hlen.symm
    have hdrop : st.pending.dropWhile (admitP st.clock) = st.pending :=
      dropWhile_eq_self_of_takeWhile_nil htake
    have hrun0 : st.running = none := by
      have hr := congrArg HState.running heq3
      rw [hr3] at hr
      exact hr.symm
    have hpne : st.pending ≠ [] := by
      intro hcon
      exact hnd ⟨hcon, hsready, hrun0⟩
    obtain ⟨q, qs, hq⟩ := List.exists_cons_of_ne_nil hpne
    have hqf : admitP st.clock q = false := by
      apply @head_not_of_takeWhile_nil _ _ _ qs
      rw [← hq]
      exact htake
    have hqa : ¬ q.arrival ≤ (st.clock : Int) := by
      simpa [admitP] using hqf
    have hgappos : 1 ≤ gapAux st.pending st.clock :=
      gapAux_pos hq hInv.2.2.2 hqa
    have hpend : st3.pending = st.pending := by rw [hpend3, hdrop]
    have hlt : gapAux st3.pending (st3.clock + 1) < gapAux st.pending st.clock := by
      rw [hpend, hclock3]
      exact gapAux_succ_lt hgappos
    rw [phaseExec_measure_idle var hr3]
    unfold measureH gapH
    omega

end HeapSched

namespace HeapSched

/-! ### Running the loop to completion -/

theorem hRun_of_done {var : Variant} {mode alg : String} {n : Nat} {st : HState}
    (h : hDone st) : hRun var mode alg n st = st := by
  cases n <;> simp [hRun, h]

theorem measureH_pos {st : HState} (hInv : InvT st) (hnd : ¬ hDone st) :
    1 ≤ measureH st := by
  unfold measureH wt
  by_cases hp : st.pending = []
  · by_cases hr : st.ready = []
    · cases hru : st.running with
      | some r =>
        have h1 : 1 ≤ r.remaining := hInv.2.2.1 r hru
        have h2 : wtList (some r : Option Process).toList = r.remaining.toNat := by
          simp
        omega
      | none => exact absurd ⟨hp, hr, hru⟩ hnd
    · obtain ⟨kp, kps, hk⟩ := List.exists_cons_of_ne_nil hr
      have hmem : kp ∈ st.ready := by rw [hk]; exact List.mem_cons_self kp kps
      have h1 : 1 ≤ kp.2.remaining := hInv.2.1 kp hmem
      have h2 : kp.2.remaining.toNat ≤ wtList (st.ready.map Prod.snd) :=
        le_wtList_of_mem (List.mem_map_of_mem _ hmem)
      omega
  · obtain ⟨q, qs, hq⟩ := List.exists_cons_of_ne_nil hp
    have hmem : q ∈ st.pending := by rw [hq]; exact List.mem_cons_self q qs
    have h1 : 1 ≤ q.remaining := hInv.1 q hmem
    have h2 : q.remaining.toNat ≤ wtList st.pending := le_wtList_of_mem hmem
    omega

theorem hRun_terminates (var : Variant) (mode alg : String) (hval : ValidAlg alg) :
    ∀ (n : Nat) (st : HState), InvT st → measureH st ≤ n →
      hDone (hRun var mode alg n st) := by
  intro n
  induction n with
  | zero =>
    intro st hInv hm
    by_cases hd : hDone st
    · simpa [hRun] using hd
    · have := measureH_pos hInv hd
      omega
  | succ n ih =>
    intro st hInv hm
    by_cases hd : hDone st
    · rw [hRun_of_done hd]; exact hd
    · show hDone (hRun var mode alg (n + 1) st)
      rw [hRun, if_neg hd]
      obtain ⟨hInv', hlt⟩ := heapStep_progress var mode alg hval hInv hd
      exact ih _ hInv' (by omega)

theorem hRun_preserve (var : Variant) (mode alg : String) (P : HState → Prop)
    (hP : ∀ st, P st → ¬ hDone st → P (heapStep var mode alg st)) :
    ∀ (n : Nat) (st : HState), P st → P (hRun var mode alg n st) := by
  intro n
  induction n with
  | zero => intro st h; simpa [hRun] using h
  | succ n ih =>
    intro st h
    by_cases hd : hDone st
    · rw [hRun_of_done hd]; exact h
    · rw [hRun, if_neg hd]
      exact ih _ (hP st h hd)

theorem sortByArrival_perm (l : List Process) : (sortByArrival l).Perm l :=
  List.perm_insertionSort _ _

theorem sortByArrival_sorted (l : List Process) : (sortByArrival l).Sorted arrivalLE :=
  List.sorted_insertionSort _ _

theorem le_maxArrival {ps : List Process} {p : Process} (h : p ∈ ps) :
    p.arrival.toNat ≤ maxArrival ps := by
  unfold maxArrival
  induction ps with
  | nil => cases h
  | cons q qs ih =>
    rcases List.mem_cons.1 h with h | h
    · subst h
      exact le_max_left _ _
    · exact le_trans (ih h) (le_max_right _ _)

theorem InvT_initH {ps : List Process} (h : ∀ p ∈ ps, 1 ≤ p.remaining) :
    InvT (initH ps) := by
  refine ⟨?_, ?_, ?_, ?_⟩
  · intro p hp
    exact h p ((sortByArrival_perm ps).mem_iff.1 hp)
  · intro kp hk
    cases hk
  · intro r hr
    cases hr
  · exact sortByArrival_sorted ps

theorem measureH_initH_le (ps : List Process)
    (hfresh : ∀ p ∈ ps, p.remaining = p.burst) :
    measureH (initH ps) ≤ sumBursts ps + maxArrival ps := by
  have hwt : wt (initH ps) = sumBursts ps := by
    unfold wt initH
    dsimp only
    simp only [List.map_nil, wtList_nil, Option.toList_none]
    have h1 : wtList (sortByArrival ps) = wtList ps :=
      wtList_perm (sortByArrival_perm ps)
    have h2 : wtList ps = sumBursts ps := by
      unfold wtList sumBursts
      congr 1
      exact List.map_congr_left (fun p hp => by rw [hfresh p hp])
    omega
  have hgap : gapH (initH ps) ≤ maxArrival ps := by
    unfold gapH initH
    dsimp only
    unfold gapAux
    cases hgl : (sortByArrival ps).getLast? with
    | none => exact Nat.zero_le _
    | some p =>
      dsimp only
      have hp : p ∈ ps := (sortByArrival_perm ps).mem_iff.1 (mem_getLast? hgl)
      have := le_maxArrival hp
      omega
  unfold measureH at *
  omega

/-- The heap-based loop, run with the fuel used by the schedulers, reaches
the empty final configuration on every fresh positive-burst input. -/
theorem heap_run_done (var : Variant) (mode alg : String) (hval : ValidAlg alg)
    (ps : List Process) (hfresh : ∀ p ∈ ps, Fresh p)
    (hburst : ∀ p ∈ ps, 1 ≤ p.burst) :
    hDone (hRun var mode alg (schedBound ps) (initH ps)) := by
  apply hRun_terminates var mode alg hval
  · exact InvT_initH (fun p hp => by rw [(hfresh p hp).1]; exact hburst p hp)
  · have := measureH_initH_le ps (fun p hp => (hfresh p hp).1)
    unfold schedBound
    omega

end HeapSched

namespace HeapSched

/-! ### Generic conservation of projections through the phases -/

@[simp] theorem projMul_nil {β : Type} (f : Process → Multiset β) : projMul f [] = 0 := rfl

@[simp] theorem projMul_cons {β : Type} (f : Process → Multiset β) (p : Process)
    (l : List Process) : projMul f (p :: l) = f p + projMul f l := by
  simp [projMul]

theorem projMul_append {β : Type} (f : Process → Multiset β) (l₁ l₂ : List Process) :
    projMul f (l₁ ++ l₂) = projMul f l₁ + projMul f l₂ := by
  simp [projMul]

theorem projMul_perm {β : Type} (f : Process → Multiset β) {l₁ l₂ : List Process}
    (h : l₁.Perm l₂) : projMul f l₁ = projMul f l₂ :=
  (h.map f).sum_eq

theorem projMul_map {β : Type} (f : Process → Multiset β) (g : Process → Process)
    (hg : ∀ p, f (g p) = f p) (l : List Process) :
    projMul f (l.map g) = projMul f l := by
  unfold projMul
  rw [List.map_map]
  congr 1
  exact List.map_congr_left (fun p _ => hg p)

theorem projOf_phaseAdmit {β : Type} (f : Process → Multiset β)
    (hf : ∀ p, f (readyProc p) = f p) {alg : String} (hval : ValidAlg alg)
    (st : HState) : projOf f (phaseAdmit alg st) = projOf f st := by
  unfold projOf
  rw [phaseAdmit_pending, phaseAdmit_ready, phaseAdmit_running, phaseAdmit_completed,
    List.map_append, projMul_append, admitEntries_map_snd hval,
    projMul_map f readyProc hf]
  have hsplit : projMul f st.pending =
      projMul f (st.pending.takeWhile (admitP st.clock)) +
      projMul f (st.pending.dropWhile (admitP st.clock)) := by
    rw [← projMul_append, List.takeWhile_append_dropWhile]
  rw [hsplit]
  abel

theorem projOf_phasePreempt {β : Type} (f : Process → Multiset β)
    (hf : ∀ var p, f (preemptedProc var p) = f p) (var : Variant) (mode alg : String)
    (st : HState) : projOf f (phasePreempt var mode alg st) = projOf f st := by
  rcases phasePreempt_cases var mode alg st with hc | ⟨r, k, hrun, _, hc⟩
  · rw [hc]
  · rw [hc]
    unfold projOf
    dsimp only
    rw [List.map_append, projMul_append, hrun]
    simp only [List.map_cons, List.map_nil, projMul_cons, projMul_nil,
      Option.toList_some, Option.toList_none, hf]
    abel

theorem projOf_phaseDispatch {β : Type} (f : Process → Multiset β)
    (hf : ∀ var c p, f (dispatchedProc var c p) = f p) (var : Variant)
    (st : HState) : projOf f (phaseDispatch var st) = projOf f st := by
  rcases phaseDispatch_cases var st with ⟨hc, _⟩ | ⟨kp, rest, hrun, hpop, hc⟩
  · rw [hc]
  · rw [hc]
    unfold projOf
    dsimp only
    rw [hrun]
    have hperm := projMul_perm f ((popMin_perm hpop).map Prod.snd)
    rw [List.map_cons, projMul_cons] at hperm
    simp only [Option.toList_some, Option.toList_none, projMul_cons, projMul_nil, hf]
    rw [hperm]
    abel

/-- Through the execution phase, a projection picks up exactly the
per-tick contribution of the running process (or nothing when idle). -/
theorem projOf_phaseExec {β : Type} (f : Process → Multiset β) (g : Nat → Multiset β)
    (htick : ∀ c p, f (tickProc c p) = f p + g c)
    (hfin : ∀ var p h s, f (applyMetrics var { p with finish := h, state := s }) = f p)
    (var : Variant) (st : HState) :
    projOf f (phaseExec var st) =
      projOf f st + (match st.running with | some _ => g st.clock | none => 0) := by
  cases hr : st.running with
  | none =>
    rw [phaseExec_none var hr]
    unfold projOf
    dsimp only
    rw [hr]
    simp
  | some r =>
    by_cases hz : r.remaining - 1 = 0
    · rw [phaseExec_some_done var hr hz]
      unfold projOf
      dsimp only
      rw [hr, projMul_append]
      simp only [Option.toList_some, Option.toList_none, projMul_cons, projMul_nil]
      rw [hfin var (tickProc st.clock r) (some (st.clock + 1)) "TERMINATED", htick]
      abel
    · rw [phaseExec_some_run var hr hz]
      unfold projOf
      dsimp only
      rw [hr]
      simp only [Option.toList_some, projMul_cons, projMul_nil]
      rw [htick]
      abel

end HeapSched

namespace HeapSched

/-! ### Conservation of pids and accounting of executed ticks -/

theorem idleTime_phaseExec (var : Variant) (st : HState) :
    (phaseExec var st).idleTime =
      st.idleTime + (match st.running with | none => 1 | some _ => 0) := by
  cases hr : st.running with
  | none => rw [phaseExec_none var hr]
  | some r =>
    by_cases hz : r.remaining - 1 = 0
    · rw [phaseExec_some_done var hr hz]
      simp
    · rw [phaseExec_some_run var hr hz]
      simp

theorem pidsOf_heapStep (var : Variant) (mode alg : String) (hval : ValidAlg alg)
    (st : HState) : pidsOf (heapStep var mode alg st) = pidsOf st := by
  unfold pidsOf
  rw [heapStep_def]
  rw [projOf_phaseExec (fun p => {p.pid}) (fun _ => 0)
    (fun c p => by simp) (fun var p h s => by simp)]
  rw [projOf_phaseDispatch (fun p => {p.pid}) (fun var c p => by simp),
    projOf_phasePreempt (fun p => {p.pid}) (fun var p => by simp),
    projOf_phaseAdmit (fun p => {p.pid}) (fun p => by simp) hval]
  cases (phaseDispatch var (phasePreempt var mode alg (phaseAdmit alg st))).running <;> simp

theorem histsOf_heapStep (var : Variant) (mode alg : String) (hval : ValidAlg alg)
    {st : HState} (h : InvHist st) : InvHist (heapStep var mode alg st) := by
  obtain ⟨st3, hst3⟩ :
      ∃ s, s = phaseDispatch var (phasePreempt var mode alg (phaseAdmit alg st)) :=
    ⟨_, rfl⟩
  have hstep : heapStep var mode alg st = phaseExec var st3 := by rw [hst3]; rfl
  have hh3 : histsOf st3 = histsOf st := by
    unfold histsOf
    rw [hst3,
      projOf_phaseDispatch _ (fun var c p => by simp),
      projOf_phasePreempt _ (fun var p => by simp),
      projOf_phaseAdmit _ (fun p => by simp) hval]
  have hclock3 : st3.clock = st.clock := by
    rw [hst3, clock_phaseDispatch, clock_phasePreempt, phaseAdmit_clock]
  have hidle3 : st3.idleTime = st.idleTime := by
    rw [hst3, idleTime_phaseDispatch, idleTime_phasePreempt, phaseAdmit_idleTime]
  have hexec : histsOf (phaseExec var st3) =
      histsOf st3 + (match st3.running with | some _ => {st3.clock} | none => 0) := by
    unfold histsOf
    exact projOf_phaseExec _ (fun c => {c})
      (fun c p => by simp; rfl)
      (fun var p hh ss => by simp)
      var st3
  obtain ⟨hnd, hbound, hcard⟩ := h
  rw [hstep]
  cases hr3 : st3.running with
  | none =>
    rw [hr3] at hexec
    simp only [add_zero] at hexec
    refine ⟨?_, ?_, ?_⟩
    · rw [hexec, hh3]; exact hnd
    · intro t ht
      rw [hexec, hh3] at ht
      rw [clock_phaseExec, hclock3]
      exact lt_trans (hbound t ht) (Nat.lt_succ_self _)
    · rw [hexec, hh3, clock_phaseExec, idleTime_phaseExec, hr3, hclock3, hidle3]
      dsimp only
      omega
  | some r =>
    rw [hr3] at hexec
    have hrec : histsOf (phaseExec var st3) = st.clock ::ₘ histsOf st := by
      rw [hexec, hh3, hclock3, ← Multiset.singleton_add, add_comm]
    have hnotmem : st.clock ∉ histsOf st := fun hmem =>
      absurd (hbound _ hmem) (lt_irrefl _)
    refine ⟨?_, ?_, ?_⟩
    · rw [hrec]
      exact Multiset.nodup_cons.2 ⟨hnotmem, hnd⟩
    · intro t ht
      rw [hrec] at ht
      rw [clock_phaseExec, hclock3]
      rcases Multiset.mem_cons.1 ht with ht | ht
      · omega
      · exact lt_trans (hbound t ht) (Nat.lt_succ_self _)
    · rw [hrec, clock_phaseExec, idleTime_phaseExec, hr3, hclock3, hidle3]
      dsimp only
      simp only [Multiset.card_cons]
      omega

/-! ### Converting the final-state multisets back to lists -/

theorem projMul_pid_eq (l : List Process) :
    projMul (fun p => ({p.pid} : Multiset String)) l =
      Multiset.ofList (l.map Process.pid) := by
  induction l with
  | nil => rfl
  | cons p rest ih =>
    rw [projMul_cons, ih]
    rfl

theorem projMul_hist_eq (l : List Process) :
    projMul (fun p => Multiset.ofList p.executionHistory) l =
      Multiset.ofList ((l.map (fun p => p.executionHistory)).flatten) := by
  induction l with
  | nil => rfl
  | cons p rest ih =>
    rw [projMul_cons, ih, List.map_cons, List.flatten_cons]
    rfl

theorem card_projMul_hist (l : List Process) :
    Multiset.card (projMul (fun p => Multiset.ofList p.executionHistory) l) =
      (l.map (fun p => p.executionHistory.length)).sum := by
  induction l with
  | nil => rfl
  | cons p rest ih =>
    rw [projMul_cons, List.map_cons, List.sum_cons, Multiset.card_add, ih]
    simp

theorem pidsOf_done {st : HState} (h : hDone st) :
    pidsOf st = Multiset.ofList (st.completed.map Process.pid) := by
  obtain ⟨hp, hr, hrun⟩ := h
  unfold pidsOf projOf
  rw [hp, hr, hrun]
  simp only [List.map_nil, projMul_nil, Option.toList_none, zero_add]
  exact projMul_pid_eq _

theorem histsOf_done {st : HState} (h : hDone st) :
    histsOf st =
      Multiset.ofList ((st.completed.map (fun p => p.executionHistory)).flatten) := by
  obtain ⟨hp, hr, hrun⟩ := h
  unfold histsOf projOf
  rw [hp, hr, hrun]
  simp only [List.map_nil, projMul_nil, Option.toList_none, zero_add]
  exact projMul_hist_eq _

theorem pidsOf_initH (ps : List Process) :
    pidsOf (initH ps) = Multiset.ofList (ps.map Process.pid) := by
  unfold pidsOf projOf initH
  dsimp only
  simp only [List.map_nil, projMul_nil, Option.toList_none, add_zero]
  rw [projMul_pid_eq]
  exact Multiset.coe_eq_coe.2 ((sortByArrival_perm ps).map _)

theorem histsOf_initH {ps : List Process} (h : ∀ p ∈ ps, p.executionHistory = []) :
    histsOf (initH ps) = 0 := by
  unfold histsOf projOf initH
  dsimp only
  simp only [List.map_nil, projMul_nil, Option.toList_none, add_zero]
  unfold projMul
  rw [List.sum_eq_zero]
  intro m hm
  obtain ⟨p, hp, hpm⟩ := List.mem_map.1 hm
  rw [h p ((sortByArrival_perm ps).mem_iff.1 hp)] at hpm
  exact hpm.symm

theorem InvHist_initH {ps : List Process} (h : ∀ p ∈ ps, p.executionHistory = []) :
    InvHist (initH ps) := by
  refine ⟨?_, ?_, ?_⟩ <;> rw [histsOf_initH h]
  · exact Multiset.nodup_zero
  · intro t ht; cases ht
  · rfl

end HeapSched

namespace HeapSched

/-! ### Round-robin: admission, slice arithmetic, progress -/

theorem admitRR_eq (c : Nat) :
    ∀ (ps : List Process) (q : List Process),
      admitRR c ps q =
        (q ++ (ps.takeWhile (admitP c)).map readyProc, ps.dropWhile (admitP c)) := by
  intro ps
  induction ps with
  | nil => intro q; simp [admitRR]
  | cons p rest ih =>
    intro q
    by_cases hp : p.arrival ≤ (c : Int)
    · have hb : admitP c p = true := by simp [admitP, hp]
      rw [admitRR, if_pos hp, ih]
      simp [List.takeWhile_cons, List.dropWhile_cons, hb]
    · have hb : admitP c p = false := by simp [admitP, hp]
      rw [admitRR, if_neg hp]
      simp [List.takeWhile_cons, List.dropWhile_cons, hb]

@[simp] theorem histTicks_length (c n : Nat) : (histTicks c n).length = n := by
  simp [histTicks]

theorem mem_histTicks {c n t : Nat} : t ∈ histTicks c n ↔ c ≤ t ∧ t < c + n := by
  unfold histTicks
  constructor
  · intro h
    obtain ⟨i, hi, rfl⟩ := List.mem_map.1 h
    rw [List.mem_range] at hi
    omega
  · intro ⟨h1, h2⟩
    refine List.mem_map.2 ⟨t - c, ?_, by omega⟩
    rw [List.mem_range]
    omega

theorem histTicks_nodup (c n : Nat) : (histTicks c n).Nodup := by
  unfold histTicks
  exact (List.nodup_range n).map (fun a b h => by omega)

@[simp] theorem rrStartProc_pid (c : Nat) (p : Process) :
    (rrStartProc c p).pid = p.pid := by
  cases h : p.start <;> simp [rrStartProc, h]
@[simp] theorem rrStartProc_remaining (c : Nat) (p : Process) :
    (rrStartProc c p).remaining = p.remaining := by
  cases h : p.start <;> simp [rrStartProc, h]
@[simp] theorem rrStartProc_executionHistory (c : Nat) (p : Process) :
    (rrStartProc c p).executionHistory = p.executionHistory := by
  cases h : p.start <;> simp [rrStartProc, h]

end HeapSched

namespace HeapSched

/-- The non-idle branch of an RR iteration, after the admission sweep has
produced head `p` and tail `qrest`. -/
def rrExec (quantum : Int) (st : RState) (pending1 : List Process) (p : Process)
    (qrest : List Process) : RState :=
  let p1 := rrStartProc st.clock p
  let execTime : Int := min quantum p1.remaining
  let ticks := execTime.toNat
  let p2 := { p1 with
      executionHistory := p1.executionHistory ++ histTicks st.clock ticks
      remaining := p1.remaining - execTime }
  let clock2 := st.clock + ticks
  if 0 < p2.remaining then
    { pending := pending1, queue := qrest ++ [p2], clock := clock2
      completed := st.completed, idleTime := st.idleTime
      contextSwitches := st.contextSwitches + 1
      cpuUtilization := st.cpuUtilization, throughput := st.throughput }
  else
    let p3 := { calculateMetricsV2 { p2 with finish := some clock2 }
                  with state := "TERMINATED" }
    { pending := pending1, queue := qrest, clock := clock2
      completed := st.completed ++ [p3], idleTime := st.idleTime
      contextSwitches := st.contextSwitches + 1
      cpuUtilization := st.cpuUtilization, throughput := st.throughput }

theorem rrStep_idle {quantum : Int} {st : RState}
    (h : (admitRR st.clock st.pending st.queue).1 = []) :
    rrStep quantum st =
      { st with pending := (admitRR st.clock st.pending st.queue).2, queue := []
                idleTime := st.idleTime + 1, clock := st.clock + 1 } := by
  unfold rrStep
  dsimp only
  rw [h]

theorem rrStep_exec {quantum : Int} {st : RState} {p : Process} {qrest : List Process}
    (h : (admitRR st.clock st.pending st.queue).1 = p :: qrest) :
    rrStep quantum st =
      rrExec quantum st (admitRR st.clock st.pending st.queue).2 p qrest := by
  unfold rrStep rrExec
  dsimp only
  rw [h]

end HeapSched

namespace HeapSched

theorem rrStep_progress (quantum : Int) (hq : 1 ≤ quantum) {st : RState}
    (hInv : InvTR st) (hnd : ¬ rDone st) :
    InvTR (rrStep quantum st) ∧ measureR (rrStep quantum st) < measureR st := by
  obtain ⟨hInvP, hInvQ, hsort⟩ := hInv
  have haq := admitRR_eq st.clock st.pending st.queue
  have hdrop : (admitRR st.clock st.pending st.queue).2 =
      st.pending.dropWhile (admitP st.clock) := by rw [haq]
  have hq1 : (admitRR st.clock st.pending st.queue).1 =
      st.queue ++ (st.pending.takeWhile (admitP st.clock)).map readyProc := by rw [haq]
  have hqueue1 : ∀ r ∈ (admitRR st.clock st.pending st.queue).1, 1 ≤ r.remaining := by
    rw [hq1]
    intro r hr
    rcases List.mem_append.1 hr with hr | hr
    · exact hInvQ r hr
    · obtain ⟨q, hqmem, rfl⟩ := List.mem_map.1 hr
      simpa using hInvP q ((List.takeWhile_sublist _).mem hqmem)
  have hInvP1 : ∀ r ∈ (admitRR st.clock st.pending st.queue).2, 1 ≤ r.remaining := by
    rw [hdrop]
    intro r hr
    exact hInvP r ((List.dropWhile_sublist _).mem hr)
  have hsort1 : ((admitRR st.clock st.pending st.queue).2).Sorted arrivalLE := by
    rw [hdrop]
    exact hsort.sublist (List.dropWhile_sublist _)
  have hwtsplit : wtList st.pending =
      wtList (st.pending.takeWhile (admitP st.clock)) +
      wtList (st.pending.dropWhile (admitP st.clock)) := by
    rw [← wtList_append, List.takeWhile_append_dropWhile]
  cases hc : (admitRR st.clock st.pending st.queue).1 with
  | nil =>
    rw [rrStep_idle hc]
    rw [hq1] at hc
    have hqnil : st.queue = [] := (List.append_eq_nil.1 hc).1
    have htake : st.pending.takeWhile (admitP st.clock) = [] := by
      have := (List.append_eq_nil.1 hc).2
      exact List.map_eq_nil_iff.1 this
    have hdropself : st.pending.dropWhile (admitP st.clock) = st.pending :=
      dropWhile_eq_self_of_takeWhile_nil htake
    have hpne : st.pending ≠ [] := fun hcon => hnd ⟨hcon, hqnil⟩
    obtain ⟨q, qs, hqq⟩ := List.exists_cons_of_ne_nil hpne
    have hqf : admitP st.clock q = false := by
      apply @head_not_of_takeWhile_nil _ _ _ qs
      rw [← hqq]
      exact htake
    have hqa : ¬ q.arrival ≤ (st.clock : Int) := by simpa [admitP] using hqf
    have hgappos : 1 ≤ gapAux st.pending st.clock := gapAux_pos hqq hsort hqa
    constructor
    · exact ⟨hInvP1, fun r hr => absurd hr (List.not_mem_nil r), hsort1⟩
    · unfold measureR wtR gapR
      dsimp only
      rw [hdrop, hdropself]
      have := gapAux_succ_lt hgappos
      simp only [wtList_nil]
      omega
  | cons p qrest =>
    rw [rrStep_exec hc]
    have hp : 1 ≤ p.remaining := hqueue1 p (by rw [hc]; exact List.mem_cons_self _ _)
    have hqrest : ∀ r ∈ qrest, 1 ≤ r.remaining := fun r hr =>
      hqueue1 r (by rw [hc]; exact List.mem_cons_of_mem _ hr)
    have hqsum : wtList st.queue +
        wtList (st.pending.takeWhile (admitP st.clock)) =
        p.remaining.toNat + wtList qrest := by
      have h1 : wtList ((admitRR st.clock st.pending st.queue).1) =
          wtList st.queue + wtList (st.pending.takeWhile (admitP st.clock)) := by
        rw [hq1, wtList_append, wtList_map_readyProc]
      rw [hc] at h1
      rw [wtList_cons] at h1
      omega
    have hexec1 : 1 ≤ min quantum p.remaining := le_min hq hp
    unfold rrExec
    dsimp only
    simp only [rrStartProc_remaining, rrStartProc_executionHistory]
    split
    · next hpos =>
      constructor
      · refine ⟨hInvP1, ?_, hsort1⟩
        intro r hr
        rcases List.mem_append.1 hr with hr | hr
        · exact hqrest r hr
        · rcases List.mem_singleton.1 hr with rfl
          dsimp only at hpos ⊢
          omega
      · unfold measureR wtR gapR
        dsimp only
        rw [hdrop]
        simp only [wtList_append, wtList_cons, wtList_nil, rrStartProc_remaining]
        have hgap : gapAux (st.pending.dropWhile (admitP st.clock))
            (st.clock + (min quantum p.remaining).toNat) ≤ gapAux st.pending st.clock :=
          le_trans (gapAux_mono (Nat.le_add_right _ _)) (gapAux_dropWhile_le _ _ _)
        omega
    · next hpos =>
      constructor
      · exact ⟨hInvP1, hqrest, hsort1⟩
      · unfold measureR wtR gapR
        dsimp only
        rw [hdrop]
        have hgap : gapAux (st.pending.dropWhile (admitP st.clock))
            (st.clock + (min quantum p.remaining).toNat) ≤ gapAux st.pending st.clock :=
          le_trans (gapAux_mono (Nat.le_add_right _ _)) (gapAux_dropWhile_le _ _ _)
        omega

end HeapSched

namespace HeapSched

theorem rRun_of_done {quantum : Int} {n : Nat} {st : RState} (h : rDone st) :
    rRun quantum n st = st := by
  cases n <;> simp [rRun, h]

theorem measureR_pos {st : RState} (hInv : InvTR st) (hnd : ¬ rDone st) :
    1 ≤ measureR st := by
  unfold measureR wtR
  by_cases hp : st.pending = []
  · by_cases hqu : st.queue = []
    · exact absurd ⟨hp, hqu⟩ hnd
    · obtain ⟨q, qs, hqq⟩ := List.exists_cons_of_ne_nil hqu
      have hmem : q ∈ st.queue := by rw [hqq]; exact List.mem_cons_self q qs
      have h1 : 1 ≤ q.remaining := hInv.2.1 q hmem
      have h2 : q.remaining.toNat ≤ wtList st.queue := le_wtList_of_mem hmem
      omega
  · obtain ⟨q, qs, hqq⟩ := List.exists_cons_of_ne_nil hp
    have hmem : q ∈ st.pending := by rw [hqq]; exact List.mem_cons_self q qs
    have h1 : 1 ≤ q.remaining := hInv.1 q hmem
    have h2 : q.remaining.toNat ≤ wtList st.pending := le_wtList_of_mem hmem
    omega

theorem rRun_terminates (quantum : Int) (hq : 1 ≤ quantum) :
    ∀ (n : Nat) (st : RState), InvTR st → measureR st ≤ n →
      rDone (rRun quantum n st) := by
  intro n
  induction n with
  | zero =>
    intro st hInv hm
    by_cases hd : rDone st
    · simpa [rRun] using hd
    · have := measureR_pos hInv hd
      omega
  | succ n ih =>
    intro st hInv hm
    by_cases hd : rDone st
    · rw [rRun_of_done hd]; exact hd
    · rw [rRun, if_neg hd]
      obtain ⟨hInv', hlt⟩ := rrStep_progress quantum hq hInv hd
      exact ih _ hInv' (by omega)

theorem rRun_preserve (quantum : Int) (P : RState → Prop)
    (hP : ∀ st, P st → ¬ rDone st → P (rrStep quantum st)) :
    ∀ (n : Nat) (st : RState), P st → P (rRun quantum n st) := by
  intro n
  induction n with
  | zero => intro st h; simpa [rRun] using h
  | succ n ih =>
    intro st h
    by_cases hd : rDone st
    · rw [rRun_of_done hd]; exact h
    · rw [rRun, if_neg hd]
      exact ih _ (hP st h hd)

theorem InvTR_initR {ps : List Process} (h : ∀ p ∈ ps, 1 ≤ p.remaining) :
    InvTR (initR ps) := by
  refine ⟨?_, ?_, ?_⟩
  · intro p hp
    exact h p ((sortByArrival_perm ps).mem_iff.1 hp)
  · intro p hp
    cases hp
  · exact sortByArrival_sorted ps

theorem measureR_initR_le (ps : List Process)
    (hfresh : ∀ p ∈ ps, p.remaining = p.burst) :
    measureR (initR ps) ≤ sumBursts ps + maxArrival ps := by
  have hwt : wtR (initR ps) = sumBursts ps := by
    unfold wtR initR
    dsimp only
    simp only [wtList_nil]
    have h1 : wtList (sortByArrival ps) = wtList ps :=
      wtList_perm (sortByArrival_perm ps)
    have h2 : wtList ps = sumBursts ps := by
      unfold wtList sumBursts
      congr 1
      exact List.map_congr_left (fun p hp => by rw [hfresh p hp])
    omega
  have hgap : gapR (initR ps) ≤ maxArrival ps := by
    unfold gapR initR
    dsimp only
    unfold gapAux
    cases hgl : (sortByArrival ps).getLast? with
    | none => exact Nat.zero_le _
    | some p =>
      dsimp only
      have hp : p ∈ ps := (sortByArrival_perm ps).mem_iff.1 (mem_getLast? hgl)
      have := le_maxArrival hp
      omega
  unfold measureR at *
  omega

theorem rr_run_done (quantum : Int) (hq : 1 ≤ quantum) (ps : List Process)
    (hfresh : ∀ p ∈ ps, Fresh p) (hburst : ∀ p ∈ ps, 1 ≤ p.burst) :
    rDone (rRun quantum (schedBound ps) (initR ps)) := by
  apply rRun_terminates quantum hq
  · exact InvTR_initR (fun p hp => by rw [(hfresh p hp).1]; exact hburst p hp)
  · have := measureR_initR_le ps (fun p hp => (hfresh p hp).1)
    unfold schedBound
    omega

end HeapSched

namespace HeapSched

/-! ### RR conservation of pids and tick accounting -/

@[simp] theorem calculateMetricsV2_pid (p : Process) :
    (calculateMetricsV2 p).pid = p.pid := by
  cases hs : p.start <;> cases hf : p.finish <;>
    simp [calculateMetricsV2, hs, hf]

@[simp] theorem calculateMetricsV2_executionHistory (p : Process) :
    (calculateMetricsV2 p).executionHistory = p.executionHistory := by
  cases hs : p.start <;> cases hf : p.finish <;>
    simp [calculateMetricsV2, hs, hf]

theorem pidsOfR_rrStep (quantum : Int) (st : RState) :
    pidsOfR (rrStep quantum st) = pidsOfR st := by
  have haq := admitRR_eq st.clock st.pending st.queue
  have hdrop : (admitRR st.clock st.pending st.queue).2 =
      st.pending.dropWhile (admitP st.clock) := by rw [haq]
  have hq1 : (admitRR st.clock st.pending st.queue).1 =
      st.queue ++ (st.pending.takeWhile (admitP st.clock)).map readyProc := by rw [haq]
  have hsplit : projMul (fun p => ({p.pid} : Multiset String)) st.pending =
      projMul (fun p => {p.pid}) (st.pending.takeWhile (admitP st.clock)) +
      projMul (fun p => {p.pid}) (st.pending.dropWhile (admitP st.clock)) := by
    rw [← projMul_append, List.takeWhile_append_dropWhile]
  have hre : ∀ a b c d : Multiset String, a + b + c + d = b + (c + a) + d := by
    intro a b c d; abel
  cases hc : (admitRR st.clock st.pending st.queue).1 with
  | nil =>
    rw [rrStep_idle hc]
    rw [hq1] at hc
    have hqnil : st.queue = [] := (List.append_eq_nil.1 hc).1
    have htake : st.pending.takeWhile (admitP st.clock) = [] :=
      List.map_eq_nil_iff.1 (List.append_eq_nil.1 hc).2
    have hdropself : st.pending.dropWhile (admitP st.clock) = st.pending :=
      dropWhile_eq_self_of_takeWhile_nil htake
    unfold pidsOfR projOfR
    dsimp only
    rw [hdrop, hdropself, hqnil]
  | cons p qrest =>
    rw [rrStep_exec hc]
    have hq1sum : projMul (fun p => ({p.pid} : Multiset String)) st.queue +
        projMul (fun p => {p.pid}) (st.pending.takeWhile (admitP st.clock)) =
        {p.pid} + projMul (fun p => {p.pid}) qrest := by
      have h1 : projMul (fun p => ({p.pid} : Multiset String))
          ((admitRR st.clock st.pending st.queue).1) =
          projMul (fun p => {p.pid}) st.queue +
          projMul (fun p => {p.pid}) (st.pending.takeWhile (admitP st.clock)) := by
        rw [hq1, projMul_append, projMul_map _ readyProc (fun p => by simp)]
      rw [hc, projMul_cons] at h1
      rw [← h1]
    unfold rrExec
    dsimp only
    split
    · unfold pidsOfR projOfR
      dsimp only
      rw [hdrop, projMul_append, projMul_cons, projMul_nil]
      simp only [rrStartProc_pid]
      rw [hsplit, hre, hq1sum]
      abel
    · unfold pidsOfR projOfR
      dsimp only
      rw [hdrop, projMul_append, projMul_cons, projMul_nil]
      simp only [calculateMetricsV2_pid, rrStartProc_pid]
      rw [hsplit, hre, hq1sum]
      abel

theorem histsOfR_rrStep_idle {quantum : Int} {st : RState}
    (hc : (admitRR st.clock st.pending st.queue).1 = []) :
    histsOfR (rrStep quantum st) = histsOfR st := by
  have haq := admitRR_eq st.clock st.pending st.queue
  have hdrop : (admitRR st.clock st.pending st.queue).2 =
      st.pending.dropWhile (admitP st.clock) := by rw [haq]
  rw [rrStep_idle hc]
  rw [admitRR_eq] at hc
  have hqnil : st.queue = [] := (List.append_eq_nil.1 hc).1
  have htake : st.pending.takeWhile (admitP st.clock) = [] :=
    List.map_eq_nil_iff.1 (List.append_eq_nil.1 hc).2
  have hdropself : st.pending.dropWhile (admitP st.clock) = st.pending :=
    dropWhile_eq_self_of_takeWhile_nil htake
  unfold histsOfR projOfR
  dsimp only
  rw [hdrop, hdropself, hqnil]

theorem histsOfR_rrStep_exec {quantum : Int} {st : RState} {p : Process}
    {qrest : List Process}
    (hc : (admitRR st.clock st.pending st.queue).1 = p :: qrest) :
    histsOfR (rrStep quantum st) =
      histsOfR st +
        Multiset.ofList (histTicks st.clock (min quantum p.remaining).toNat) := by
  have haq := admitRR_eq st.clock st.pending st.queue
  have hdrop : (admitRR st.clock st.pending st.queue).2 =
      st.pending.dropWhile (admitP st.clock) := by rw [haq]
  have hq1 : (admitRR st.clock st.pending st.queue).1 =
      st.queue ++ (st.pending.takeWhile (admitP st.clock)).map readyProc := by rw [haq]
  have hsplit : projMul (fun p => Multiset.ofList p.executionHistory) st.pending =
      projMul (fun p => Multiset.ofList p.executionHistory)
        (st.pending.takeWhile (admitP st.clock)) +
      projMul (fun p => Multiset.ofList p.executionHistory)
        (st.pending.dropWhile (admitP st.clock)) := by
    rw [← projMul_append, List.takeWhile_append_dropWhile]
  have hre : ∀ a b c d : Multiset ℕ, a + b + c + d = b + (c + a) + d := by
    intro a b c d; abel
  have hq1sum : projMul (fun p => Multiset.ofList p.executionHistory) st.queue +
      projMul (fun p => Multiset.ofList p.executionHistory)
        (st.pending.takeWhile (admitP st.clock)) =
      Multiset.ofList p.executionHistory +
        projMul (fun p => Multiset.ofList p.executionHistory) qrest := by
    have h1 : projMul (fun p => Multiset.ofList p.executionHistory)
        ((admitRR st.clock st.pending st.queue).1) =
        projMul (fun p => Multiset.ofList p.executionHistory) st.queue +
        projMul (fun p => Multiset.ofList p.executionHistory)
          (st.pending.takeWhile (admitP st.clock)) := by
      rw [hq1, projMul_append, projMul_map _ readyProc (fun p => by simp)]
    rw [hc, projMul_cons] at h1
    rw [← h1]
  rw [rrStep_exec hc]
  unfold rrExec
  dsimp only
  have hofcat : ∀ (l₁ l₂ : List Nat),
      Multiset.ofList (l₁ ++ l₂) = Multiset.ofList l₁ + Multiset.ofList l₂ :=
    fun l₁ l₂ => rfl
  split
  · unfold histsOfR projOfR
    dsimp only
    rw [hdrop, projMul_append, projMul_cons, projMul_nil]
    simp only [rrStartProc_executionHistory, rrStartProc_remaining]
    refine Multiset.ext.2 (fun a => ?_)
    have h := congrArg (Multiset.count a) hq1sum
    have h2 := congrArg (Multiset.count a) hsplit
    simp only [Multiset.count_add, Multiset.count_zero, hofcat] at h h2 ⊢
    omega
  · unfold histsOfR projOfR
    dsimp only
    rw [hdrop, projMul_append, projMul_cons, projMul_nil]
    simp only [calculateMetricsV2_executionHistory, rrStartProc_executionHistory,
      rrStartProc_remaining]
    refine Multiset.ext.2 (fun a => ?_)
    have h := congrArg (Multiset.count a) hq1sum
    have h2 := congrArg (Multiset.count a) hsplit
    simp only [Multiset.count_add, Multiset.count_zero, hofcat] at h h2 ⊢
    omega

end HeapSched

namespace HeapSched

theorem rrStep_exec_clock_idle {quantum : Int} {st : RState} {p : Process}
    {qrest : List Process}
    (hc : (admitRR st.clock st.pending st.queue).1 = p :: qrest) :
    (rrStep quantum st).clock = st.clock + (min quantum p.remaining).toNat ∧
    (rrStep quantum st).idleTime = st.idleTime := by
  rw [rrStep_exec hc]
  unfold rrExec
  dsimp only
  simp only [rrStartProc_remaining]
  split <;> exact ⟨rfl, rfl⟩

theorem InvHistR_rrStep (quantum : Int) {st : RState} (h : InvHistR st) :
    InvHistR (rrStep quantum st) := by
  obtain ⟨hnd, hbound, hcard⟩ := h
  cases hc : (admitRR st.clock st.pending st.queue).1 with
  | nil =>
    have hh : histsOfR (rrStep quantum st) = histsOfR st := histsOfR_rrStep_idle hc
    have hclock : (rrStep quantum st).clock = st.clock + 1 := by rw [rrStep_idle hc]
    have hidle : (rrStep quantum st).idleTime = st.idleTime + 1 := by rw [rrStep_idle hc]
    refine ⟨?_, ?_, ?_⟩
    · rw [hh]; exact hnd
    · intro t ht
      rw [hh] at ht
      rw [hclock]
      exact lt_trans (hbound t ht) (Nat.lt_succ_self _)
    · rw [hh, hclock, hidle]
      omega
  | cons p qrest =>
    have hh : histsOfR (rrStep quantum st) =
        histsOfR st +
          Multiset.ofList (histTicks st.clock (min quantum p.remaining).toNat) :=
      histsOfR_rrStep_exec hc
    obtain ⟨hclock, hidle⟩ := @rrStep_exec_clock_idle quantum _ _ _ hc
    refine ⟨?_, ?_, ?_⟩
    · rw [hh]
      refine Multiset.nodup_add.2 ⟨hnd, Multiset.coe_nodup.2 (histTicks_nodup _ _), ?_⟩
      refine Multiset.disjoint_left.2 ?_
      intro a ha hat
      have h1 := hbound a ha
      have h2 := (mem_histTicks.1 (Multiset.mem_coe.1 hat)).1
      exact absurd h1 (by omega)
    · intro t ht
      rw [hh] at ht
      rw [hclock]
      rcases Multiset.mem_add.1 ht with ht | ht
      · exact lt_of_lt_of_le (hbound t ht) (Nat.le_add_right _ _)
      · exact (mem_histTicks.1 (Multiset.mem_coe.1 ht)).2
    · rw [hh, hclock, hidle]
      simp only [Multiset.card_add, Multiset.coe_card, histTicks_length]
      omega

theorem pidsOfR_done {st : RState} (h : rDone st) :
    pidsOfR st = Multiset.ofList (st.completed.map Process.pid) := by
  obtain ⟨hp, hq⟩ := h
  unfold pidsOfR projOfR
  rw [hp, hq]
  simp only [projMul_nil, zero_add]
  exact projMul_pid_eq _

theorem histsOfR_done {st : RState} (h : rDone st) :
    histsOfR st =
      Multiset.ofList ((st.completed.map (fun p => p.executionHistory)).flatten) := by
  obtain ⟨hp, hq⟩ := h
  unfold histsOfR projOfR
  rw [hp, hq]
  simp only [projMul_nil, zero_add]
  exact projMul_hist_eq _

theorem pidsOfR_initR (ps : List Process) :
    pidsOfR (initR ps) = Multiset.ofList (ps.map Process.pid) := by
  unfold pidsOfR projOfR initR
  dsimp only
  simp only [projMul_nil, add_zero]
  rw [projMul_pid_eq]
  exact Multiset.coe_eq_coe.2 ((sortByArrival_perm ps).map _)

theorem histsOfR_initR {ps : List Process} (h : ∀ p ∈ ps, p.executionHistory = []) :
    histsOfR (initR ps) = 0 := by
  unfold histsOfR projOfR initR
  dsimp only
  simp only [projMul_nil, add_zero]
  unfold projMul
  rw [List.sum_eq_zero]
  intro m hm
  obtain ⟨p, hp, hpm⟩ := List.mem_map.1 hm
  rw [h p ((sortByArrival_perm ps).mem_iff.1 hp)] at hpm
  exact hpm.symm

theorem InvHistR_initR {ps : List Process} (h : ∀ p ∈ ps, p.executionHistory = []) :
    InvHistR (initR ps) := by
  refine ⟨?_, ?_, ?_⟩ <;> rw [histsOfR_initR h]
  · exact Multiset.nodup_zero
  · intro t ht; cases ht
  · rfl

end HeapSched

namespace HeapSched

/-! ### Final-state packages and schedule-function wrappers -/

theorem heap_final (var : Variant) (mode alg : String) (hval : ValidAlg alg)
    (ps : List Process) (hfresh : ∀ p ∈ ps, Fresh p)
    (hburst : ∀ p ∈ ps, 1 ≤ p.burst) :
    hDone (hRun var mode alg (schedBound ps) (initH ps)) ∧
    ((hRun var mode alg (schedBound ps) (initH ps)).completed.map Process.pid).Perm
      (ps.map Process.pid) ∧
    InvHist (hRun var mode alg (schedBound ps) (initH ps)) := by
  have hdone := heap_run_done var mode alg hval ps hfresh hburst
  have hpids : pidsOf (hRun var mode alg (schedBound ps) (initH ps)) =
      pidsOf (initH ps) :=
    hRun_preserve var mode alg (fun st => pidsOf st = pidsOf (initH ps))
      (fun st h _ => by
        show pidsOf (heapStep var mode alg st) = pidsOf (initH ps)
        rw [pidsOf_heapStep var mode alg hval st]
        exact h)
      (schedBound ps) (initH ps) rfl
  have hhist : InvHist (hRun var mode alg (schedBound ps) (initH ps)) :=
    hRun_preserve var mode alg InvHist
      (fun st h _ => histsOf_heapStep var mode alg hval h)
      (schedBound ps) (initH ps)
      (InvHist_initH (fun p hp => (hfresh p hp).2.2.2.2.2.2.2.1))
  refine ⟨hdone, ?_, hhist⟩
  rw [pidsOf_done hdone, pidsOf_initH] at hpids
  exact Multiset.coe_eq_coe.1 hpids

theorem rr_final (quantum : Int) (hq : 1 ≤ quantum) (ps : List Process)
    (hfresh : ∀ p ∈ ps, Fresh p) (hburst : ∀ p ∈ ps, 1 ≤ p.burst) :
    rDone (rRun quantum (schedBound ps) (initR ps)) ∧
    ((rRun quantum (schedBound ps) (initR ps)).completed.map Process.pid).Perm
      (ps.map Process.pid) ∧
    InvHistR (rRun quantum (schedBound ps) (initR ps)) := by
  have hdone := rr_run_done quantum hq ps hfresh hburst
  have hpids : pidsOfR (rRun quantum (schedBound ps) (initR ps)) =
      pidsOfR (initR ps) :=
    rRun_preserve quantum (fun st => pidsOfR st = pidsOfR (initR ps))
      (fun st h _ => by
        show pidsOfR (rrStep quantum st) = pidsOfR (initR ps)
        rw [pidsOfR_rrStep quantum st]
        exact h)
      (schedBound ps) (initR ps) rfl
  have hhist : InvHistR (rRun quantum (schedBound ps) (initR ps)) :=
    rRun_preserve quantum InvHistR
      (fun st h _ => InvHistR_rrStep quantum h)
      (schedBound ps) (initR ps)
      (InvHistR_initR (fun p hp => (hfresh p hp).2.2.2.2.2.2.2.1))
  refine ⟨hdone, ?_, hhist⟩
  rw [pidsOfR_done hdone, pidsOfR_initR] at hpids
  exact Multiset.coe_eq_coe.1 hpids

theorem hRun_clock_le (var : Variant) (mode alg : String) :
    ∀ (n : Nat) (st : HState), st.clock ≤ (hRun var mode alg n st).clock := by
  intro n
  induction n with
  | zero => intro st; simp [hRun]
  | succ n ih =>
    intro st
    by_cases hd : hDone st
    · rw [hRun_of_done hd]
    · rw [hRun, if_neg hd]
      have h1 := heapStep_clock var mode alg st
      have h2 := ih (heapStep var mode alg st)
      omega

theorem hRun_clock_pos {var : Variant} {mode alg : String} {n : Nat} {st : HState}
    (hnd : ¬ hDone st) (hn : 1 ≤ n) :
    st.clock + 1 ≤ (hRun var mode alg n st).clock := by
  obtain ⟨m, rfl⟩ : ∃ m, n = m + 1 := ⟨n - 1, by omega⟩
  rw [hRun, if_neg hnd]
  have h1 := heapStep_clock var mode alg st
  have h2 := hRun_clock_le var mode alg m (heapStep var mode alg st)
  omega

theorem rrStep_clock_ge (quantum : Int) (st : RState) :
    st.clock ≤ (rrStep quantum st).clock := by
  cases hc : (admitRR st.clock st.pending st.queue).1 with
  | nil =>
    rw [rrStep_idle hc]
    dsimp only
    omega
  | cons p qrest =>
    have := (@rrStep_exec_clock_idle quantum _ _ _ hc).1
    omega

theorem rRun_clock_le (quantum : Int) :
    ∀ (n : Nat) (st : RState), st.clock ≤ (rRun quantum n st).clock := by
  intro n
  induction n with
  | zero => intro st; simp [rRun]
  | succ n ih =>
    intro st
    by_cases hd : rDone st
    · rw [rRun_of_done hd]
    · rw [rRun, if_neg hd]
      have h1 := rrStep_clock_ge quantum st
      have h2 := ih (rrStep quantum st)
      omega

theorem rrStep_clock_strict {quantum : Int} (hq : 1 ≤ quantum) {st : RState}
    (hInv : InvTR st) (hnd : ¬ rDone st) :
    st.clock + 1 ≤ (rrStep quantum st).clock := by
  cases hc : (admitRR st.clock st.pending st.queue).1 with
  | nil =>
    rw [rrStep_idle hc]
  | cons p qrest =>
    have hq1 : (admitRR st.clock st.pending st.queue).1 =
        st.queue ++ (st.pending.takeWhile (admitP st.clock)).map readyProc := by
      rw [admitRR_eq]
    have hp : 1 ≤ p.remaining := by
      have hmem : p ∈ (admitRR st.clock st.pending st.queue).1 := by
        rw [hc]; exact List.mem_cons_self _ _
      rw [hq1] at hmem
      rcases List.mem_append.1 hmem with hm | hm
      · exact hInv.2.1 p hm
      · obtain ⟨q, hqmem, rfl⟩ := List.mem_map.1 hm
        simpa using hInv.1 q ((List.takeWhile_sublist _).mem hqmem)
    have := (@rrStep_exec_clock_idle quantum _ _ _ hc).1
    have hmin : 1 ≤ (min quantum p.remaining).toNat := by
      have := le_min hq hp
      omega
    omega

theorem rRun_clock_pos {quantum : Int} (hq : 1 ≤ quantum) {n : Nat} {st : RState}
    (hInv : InvTR st) (hnd : ¬ rDone st) (hn : 1 ≤ n) :
    st.clock + 1 ≤ (rRun quantum n st).clock := by
  obtain ⟨m, rfl⟩ : ∃ m, n = m + 1 := ⟨n - 1, by omega⟩
  rw [rRun, if_neg hnd]
  have h1 := rrStep_clock_strict hq hInv hnd
  have h2 := rRun_clock_le quantum m (rrStep quantum st)
  omega

@[simp] theorem systemMetrics_completed (st : HState) :
    (systemMetrics st).completed = st.completed := by
  unfold systemMetrics; split <;> rfl
@[simp] theorem systemMetrics_idleTime (st : HState) :
    (systemMetrics st).idleTime = st.idleTime := by
  unfold systemMetrics; split <;> rfl
@[simp] theorem systemMetrics_clock (st : HState) :
    (systemMetrics st).clock = st.clock := by
  unfold systemMetrics; split <;> rfl

theorem systemMetrics_util {st : HState} (h : 0 < st.clock) :
    (systemMetrics st).cpuUtilization =
      (((st.clock : ℚ) - (st.idleTime : ℚ)) / (st.clock : ℚ)) * 100 := by
  unfold systemMetrics
  rw [if_pos h]

@[simp] theorem systemMetricsR_completed (st : RState) :
    (systemMetricsR st).completed = st.completed := by
  unfold systemMetricsR; split <;> rfl
@[simp] theorem systemMetricsR_idleTime (st : RState) :
    (systemMetricsR st).idleTime = st.idleTime := by
  unfold systemMetricsR; split <;> rfl
@[simp] theorem systemMetricsR_clock (st : RState) :
    (systemMetricsR st).clock = st.clock := by
  unfold systemMetricsR; split <;> rfl

theorem systemMetricsR_util {st : RState} (h : 0 < st.clock) :
    (systemMetricsR st).cpuUtilization =
      (((st.clock : ℚ) - (st.idleTime : ℚ)) / (st.clock : ℚ)) * 100 := by
  unfold systemMetricsR
  rw [if_pos h]

theorem scheduleV1_eq_of_done {ps : List Process} {mode alg : String}
    (h : hDone (hRun .v1 mode alg (schedBound ps) (initH ps))) :
    scheduleV1 ps mode alg =
      some (systemMetrics (hRun .v1 mode alg (schedBound ps) (initH ps))) := by
  unfold scheduleV1
  dsimp only
  rw [if_pos h]

theorem scheduleV2_heap_eq {ps : List Process} {mode alg : String} {q : Int}
    (hl : lowerString alg = alg) (hne : alg ≠ "rr")
    (h : hDone (hRun .v2 mode alg (schedBound ps) (initH ps))) :
    scheduleV2 ps mode alg q =
      some (hResult (systemMetrics (hRun .v2 mode alg (schedBound ps) (initH ps)))) := by
  unfold scheduleV2
  dsimp only
  rw [hl, if_neg hne, if_pos h]

theorem scheduleV2_rr_eq {ps : List Process} {mode : String} {q : Int}
    (h : rDone (rRun q (schedBound ps) (initR ps))) :
    scheduleV2 ps mode "rr" q =
      some (rResult (systemMetricsR (rRun q (schedBound ps) (initR ps)))) := by
  unfold scheduleV2 scheduleRR
  dsimp only
  rw [show lowerString "rr" = "rr" from rfl]
  rw [if_pos rfl, if_pos h]
  rfl

end HeapSched

namespace HeapSched

@[simp] theorem hResult_completed (st : HState) : (hResult st).completed = st.completed := rfl
@[simp] theorem hResult_idleTime (st : HState) : (hResult st).idleTime = st.idleTime := rfl
@[simp] theorem hResult_clock (st : HState) : (hResult st).clock = st.clock := rfl
@[simp] theorem hResult_cpuUtilization (st : HState) :
    (hResult st).cpuUtilization = st.cpuUtilization := rfl
@[simp] theorem rResult_completed (st : RState) : (rResult st).completed = st.completed := rfl
@[simp] theorem rResult_idleTime (st : RState) : (rResult st).idleTime = st.idleTime := rfl
@[simp] theorem rResult_clock (st : RState) : (rResult st).clock = st.clock := rfl
@[simp] theorem rResult_cpuUtilization (st : RState) :
    (rResult st).cpuUtilization = st.cpuUtilization := rfl

/-- C6: on every fresh input whose bursts are all positive (with a positive
quantum when the algorithm is `"rr"`), `schedule()` terminates and returns,
and the completed list contains exactly the admitted processes (its pid
multiset is a permutation of the input's pids).  This holds for the
`scheduler_code_rr.py` scheduler under all four algorithms and for the
`scheduler_code.py` scheduler under its three algorithms. -/
theorem c6_termination (ps : List Process) (mode alg : String) (q : Int)
    (hfresh : ∀ p ∈ ps, Fresh p ∧ 1 ≤ p.burst)
    (halg : alg = "priority" ∨ alg = "sjf" ∨ alg = "fcfs" ∨ alg = "rr")
    (hq : alg = "rr" → 1 ≤ q) :
    (∃ r, scheduleV2 ps mode alg q = some r ∧
      (r.completed.map Process.pid).Perm (ps.map Process.pid)) ∧
    (alg ≠ "rr" → ∃ st, scheduleV1 ps mode alg = some st ∧
      (st.completed.map Process.pid).Perm (ps.map Process.pid)) := by
  have hf : ∀ p ∈ ps, Fresh p := fun p hp => (hfresh p hp).1
  have hb : ∀ p ∈ ps, 1 ≤ p.burst := fun p hp => (hfresh p hp).2
  rcases halg with rfl | rfl | rfl | rfl
  · have hval : ValidAlg "priority" := Or.inl rfl
    obtain ⟨hdone2, hperm2, _⟩ := heap_final .v2 mode "priority" hval ps hf hb
    obtain ⟨hdone1, hperm1, _⟩ := heap_final .v1 mode "priority" hval ps hf hb
    exact ⟨⟨_, scheduleV2_heap_eq rfl (by decide) hdone2, by simpa using hperm2⟩,
      fun _ => ⟨_, scheduleV1_eq_of_done hdone1, by simpa using hperm1⟩⟩
  · have hval : ValidAlg "sjf" := Or.inr (Or.inl rfl)
    obtain ⟨hdone2, hperm2, _⟩ := heap_final .v2 mode "sjf" hval ps hf hb
    obtain ⟨hdone1, hperm1, _⟩ := heap_final .v1 mode "sjf" hval ps hf hb
    exact ⟨⟨_, scheduleV2_heap_eq rfl (by decide) hdone2, by simpa using hperm2⟩,
      fun _ => ⟨_, scheduleV1_eq_of_done hdone1, by simpa using hperm1⟩⟩
  · have hval : ValidAlg "fcfs" := Or.inr (Or.inr rfl)
    obtain ⟨hdone2, hperm2, _⟩ := heap_final .v2 mode "fcfs" hval ps hf hb
    obtain ⟨hdone1, hperm1, _⟩ := heap_final .v1 mode "fcfs" hval ps hf hb
    exact ⟨⟨_, scheduleV2_heap_eq rfl (by decide) hdone2, by simpa using hperm2⟩,
      fun _ => ⟨_, scheduleV1_eq_of_done hdone1, by simpa using hperm1⟩⟩
  · have hq1 : 1 ≤ q := hq rfl
    obtain ⟨hdone, hperm, _⟩ := rr_final q hq1 ps hf hb
    exact ⟨⟨_, scheduleV2_rr_eq hdone, by simpa using hperm⟩,
      fun hne => absurd rfl hne⟩

/-- C6 witness: the termination theorem applied to a concrete two-process
round-robin input. -/
theorem c6_termination_witness :
    (∃ r, scheduleV2 [mkProcess "P1" 0 5 1 "CPU", mkProcess "P2" 1 3 1 "CPU"]
        "preemptive" "rr" 2 = some r ∧
      (r.completed.map Process.pid).Perm
        ([mkProcess "P1" 0 5 1 "CPU", mkProcess "P2" 1 3 1 "CPU"].map Process.pid)) ∧
    ("rr" ≠ "rr" → ∃ st, scheduleV1 [mkProcess "P1" 0 5 1 "CPU",
        mkProcess "P2" 1 3 1 "CPU"] "preemptive" "rr" = some st ∧
      (st.completed.map Process.pid).Perm
        ([mkProcess "P1" 0 5 1 "CPU", mkProcess "P2" 1 3 1 "CPU"].map Process.pid)) :=
  c6_termination [mkProcess "P1" 0 5 1 "CPU", mkProcess "P2" 1 3 1 "CPU"]
    "preemptive" "rr" 2 (by decide) (by decide) (fun _ => by decide)

theorem InvHist_to_props {st : HState} (hdone : hDone st) (hinv : InvHist st) :
    st.idleTime + ((st.completed.map (fun p => p.executionHistory.length)).sum) = st.clock ∧
    ((st.completed.map (fun p => p.executionHistory)).flatten).Nodup := by
  obtain ⟨hnd, _, hcard⟩ := hinv
  have hh := histsOf_done hdone
  constructor
  · rw [hh] at hcard
    rw [Multiset.coe_card, List.length_flatten, List.map_map] at hcard
    have hmm : (st.completed.map (List.length ∘ fun p => p.executionHistory)).sum =
        (st.completed.map (fun p => p.executionHistory.length)).sum := rfl
    omega
  · rw [hh] at hnd
    exact Multiset.coe_nodup.1 hnd

theorem InvHistR_to_props {st : RState} (hdone : rDone st) (hinv : InvHistR st) :
    st.idleTime + ((st.completed.map (fun p => p.executionHistory.length)).sum) = st.clock ∧
    ((st.completed.map (fun p => p.executionHistory)).flatten).Nodup := by
  obtain ⟨hnd, _, hcard⟩ := hinv
  have hh := histsOfR_done hdone
  constructor
  · rw [hh] at hcard
    rw [Multiset.coe_card, List.length_flatten, List.map_map] at hcard
    have hmm : (st.completed.map (List.length ∘ fun p => p.executionHistory)).sum =
        (st.completed.map (fun p => p.executionHistory.length)).sum := rfl
    omega
  · rw [hh] at hnd
    exact Multiset.coe_nodup.1 hnd

/-- C9: at the end of every completed run, the idle ticks plus the total
number of execution-history entries over all completed processes equal the
final clock, and no tick appears in two processes' histories (the
concatenation of all histories has no duplicates).  Stated for both
schedulers (`scheduler_code_rr.py` on all four algorithms,
`scheduler_code.py` on its three). -/
theorem c9_tick_accounting (ps : List Process) (mode alg : String) (q : Int)
    (hfresh : ∀ p ∈ ps, Fresh p ∧ 1 ≤ p.burst)
    (halg : alg = "priority" ∨ alg = "sjf" ∨ alg = "fcfs" ∨ alg = "rr")
    (hq : alg = "rr" → 1 ≤ q) :
    (∀ r, scheduleV2 ps mode alg q = some r →
      r.idleTime + ((r.completed.map (fun p => p.executionHistory.length)).sum) = r.clock ∧
      ((r.completed.map (fun p => p.executionHistory)).flatten).Nodup) ∧
    (alg ≠ "rr" → ∀ st, scheduleV1 ps mode alg = some st →
      st.idleTime + ((st.completed.map (fun p => p.executionHistory.length)).sum) = st.clock ∧
      ((st.completed.map (fun p => p.executionHistory)).flatten).Nodup) := by
  have hf : ∀ p ∈ ps, Fresh p := fun p hp => (hfresh p hp).1
  have hb : ∀ p ∈ ps, 1 ≤ p.burst := fun p hp => (hfresh p hp).2
  rcases halg with rfl | rfl | rfl | rfl
  case _ =>
    have hval : ValidAlg "priority" := Or.inl rfl
    obtain ⟨hdone2, _, hhist2⟩ := heap_final .v2 mode "priority" hval ps hf hb
    obtain ⟨hdone1, _, hhist1⟩ := heap_final .v1 mode "priority" hval ps hf hb
    constructor
    · intro r hr
      rw [scheduleV2_heap_eq rfl (by decide) hdone2] at hr
      cases hr
      simpa using InvHist_to_props hdone2 hhist2
    · intro _ st hst
      rw [scheduleV1_eq_of_done hdone1] at hst
      cases hst
      simpa using InvHist_to_props hdone1 hhist1
  case _ =>
    have hval : ValidAlg "sjf" := Or.inr (Or.inl rfl)
    obtain ⟨hdone2, _, hhist2⟩ := heap_final .v2 mode "sjf" hval ps hf hb
    obtain ⟨hdone1, _, hhist1⟩ := heap_final .v1 mode "sjf" hval ps hf hb
    constructor
    · intro r hr
      rw [scheduleV2_heap_eq rfl (by decide) hdone2] at hr
      cases hr
      simpa using InvHist_to_props hdone2 hhist2
    · intro _ st hst
      rw [scheduleV1_eq_of_done hdone1] at hst
      cases hst
      simpa using InvHist_to_props hdone1 hhist1
  case _ =>
    have hval : ValidAlg "fcfs" := Or.inr (Or.inr rfl)
    obtain ⟨hdone2, _, hhist2⟩ := heap_final .v2 mode "fcfs" hval ps hf hb
    obtain ⟨hdone1, _, hhist1⟩ := heap_final .v1 mode "fcfs" hval ps hf hb
    constructor
    · intro r hr
      rw [scheduleV2_heap_eq rfl (by decide) hdone2] at hr
      cases hr
      simpa using InvHist_to_props hdone2 hhist2
    · intro _ st hst
      rw [scheduleV1_eq_of_done hdone1] at hst
      cases hst
      simpa using InvHist_to_props hdone1 hhist1
  case _ =>
    have hq1 : 1 ≤ q := hq rfl
    obtain ⟨hdone, _, hhist⟩ := rr_final q hq1 ps hf hb
    constructor
    · intro r hr
      rw [scheduleV2_rr_eq hdone] at hr
      cases hr
      simpa using InvHistR_to_props hdone hhist
    · intro hne
      exact absurd rfl hne

end HeapSched

namespace HeapSched

theorem sortByArrival_ne_nil {ps : List Process} (h : ps ≠ []) :
    sortByArrival ps ≠ [] := by
  intro hcon
  have := (sortByArrival_perm ps).length_eq
  rw [hcon] at this
  exact h (List.eq_nil_of_length_eq_zero this.symm)

theorem initH_not_done {ps : List Process} (h : ps ≠ []) : ¬ hDone (initH ps) := by
  intro hcon
  exact sortByArrival_ne_nil h hcon.1

theorem initR_not_done {ps : List Process} (h : ps ≠ []) : ¬ rDone (initR ps) := by
  intro hcon
  exact sortByArrival_ne_nil h hcon.1

theorem schedBound_pos (ps : List Process) : 1 ≤ schedBound ps := by
  unfold schedBound
  omega

theorem util_bounds {c i : ℕ} (hc : 0 < c) (hi : i ≤ c) :
    0 ≤ (((c : ℚ) - (i : ℚ)) / (c : ℚ)) * 100 ∧
    (((c : ℚ) - (i : ℚ)) / (c : ℚ)) * 100 ≤ 100 ∧
    ((((c : ℚ) - (i : ℚ)) / (c : ℚ)) * 100 = 100 ↔ i = 0) := by
  have hc' : (0 : ℚ) < (c : ℚ) := by exact_mod_cast hc
  have hi' : (i : ℚ) ≤ (c : ℚ) := by exact_mod_cast hi
  have hin : (0 : ℚ) ≤ (i : ℚ) := by positivity
  refine ⟨?_, ?_, ?_, ?_⟩
  · exact mul_nonneg (div_nonneg (by linarith) (le_of_lt hc')) (by norm_num)
  · have h1 : ((c : ℚ) - i) / c ≤ 1 := by
      rw [div_le_one hc']
      linarith
    calc ((c : ℚ) - i) / c * 100 ≤ 1 * 100 :=
          mul_le_mul_of_nonneg_right h1 (by norm_num)
      _ = 100 := by norm_num
  · intro h
    have h2 : ((c : ℚ) - i) / c * 100 = 1 * 100 := by rw [h]; norm_num
    have h3 : ((c : ℚ) - i) / c = 1 := mul_right_cancel₀ (by norm_num) h2
    rw [div_eq_one_iff_eq (ne_of_gt hc')] at h3
    have : (i : ℚ) = 0 := by linarith
    exact_mod_cast this
  · intro h
    subst h
    push_cast
    rw [sub_zero, div_self (ne_of_gt hc')]
    norm_num

/-- C8 amended: on every completed run over a non-empty, fresh,
positive-burst input (with positive quantum under RR), the reported CPU
utilization lies in `[0, 100]` and equals 100 exactly when the idle time is
0.  The original claim fails only for the empty input, where the metric
computation is skipped and utilization stays 0 despite zero idle time. -/
theorem c8_amended (ps : List Process) (mode alg : String) (q : Int)
    (hps : ps ≠ [])
    (hfresh : ∀ p ∈ ps, Fresh p ∧ 1 ≤ p.burst)
    (halg : alg = "priority" ∨ alg = "sjf" ∨ alg = "fcfs" ∨ alg = "rr")
    (hq : alg = "rr" → 1 ≤ q) :
    (∀ r, scheduleV2 ps mode alg q = some r →
      0 ≤ r.cpuUtilization ∧ r.cpuUtilization ≤ 100 ∧
      (r.cpuUtilization = 100 ↔ r.idleTime = 0)) ∧
    (alg ≠ "rr" → ∀ st, scheduleV1 ps mode alg = some st →
      0 ≤ st.cpuUtilization ∧ st.cpuUtilization ≤ 100 ∧
      (st.cpuUtilization = 100 ↔ st.idleTime = 0)) := by
  have hf : ∀ p ∈ ps, Fresh p := fun p hp => (hfresh p hp).1
  have hb : ∀ p ∈ ps, 1 ≤ p.burst := fun p hp => (hfresh p hp).2
  have hheap : ∀ (var : Variant) (alg' : String), ValidAlg alg' →
      0 < (hRun var mode alg' (schedBound ps) (initH ps)).clock ∧
      (hRun var mode alg' (schedBound ps) (initH ps)).idleTime ≤
        (hRun var mode alg' (schedBound ps) (initH ps)).clock := by
    intro var alg' hval
    obtain ⟨hdone, _, hhist⟩ := heap_final var mode alg' hval ps hf hb
    constructor
    · have := @hRun_clock_pos var mode alg' _ _
        (initH_not_done hps) (schedBound_pos ps)
      simpa [initH] using this
    · have := hhist.2.2
      omega
  have hmk : ∀ (var : Variant) (alg' : String), ValidAlg alg' →
      0 ≤ (systemMetrics (hRun var mode alg' (schedBound ps) (initH ps))).cpuUtilization ∧
      (systemMetrics (hRun var mode alg' (schedBound ps) (initH ps))).cpuUtilization ≤ 100 ∧
      ((systemMetrics (hRun var mode alg' (schedBound ps) (initH ps))).cpuUtilization = 100 ↔
        (systemMetrics (hRun var mode alg' (schedBound ps) (initH ps))).idleTime = 0) := by
    intro var alg' hval
    obtain ⟨hclock, hidle⟩ := hheap var alg' hval
    rw [systemMetrics_util hclock, systemMetrics_idleTime]
    exact util_bounds hclock hidle
  rcases halg with rfl | rfl | rfl | rfl
  case _ =>
    have hval : ValidAlg "priority" := Or.inl rfl
    obtain ⟨hdone2, _, _⟩ := heap_final .v2 mode "priority" hval ps hf hb
    obtain ⟨hdone1, _, _⟩ := heap_final .v1 mode "priority" hval ps hf hb
    constructor
    · intro r hr
      rw [scheduleV2_heap_eq rfl (by decide) hdone2] at hr
      cases hr
      simpa using hmk .v2 "priority" hval
    · intro _ st hst
      rw [scheduleV1_eq_of_done hdone1] at hst
      cases hst
      exact hmk .v1 "priority" hval
  case _ =>
    have hval : ValidAlg "sjf" := Or.inr (Or.inl rfl)
    obtain ⟨hdone2, _, _⟩ := heap_final .v2 mode "sjf" hval ps hf hb
    obtain ⟨hdone1, _, _⟩ := heap_final .v1 mode "sjf" hval ps hf hb
    constructor
    · intro r hr
      rw [scheduleV2_heap_eq rfl (by decide) hdone2] at hr
      cases hr
      simpa using hmk .v2 "sjf" hval
    · intro _ st hst
      rw [scheduleV1_eq_of_done hdone1] at hst
      cases hst
      exact hmk .v1 "sjf" hval
  case _ =>
    have hval : ValidAlg "fcfs" := Or.inr (Or.inr rfl)
    obtain ⟨hdone2, _, _⟩ := heap_final .v2 mode "fcfs" hval ps hf hb
    obtain ⟨hdone1, _, _⟩ := heap_final .v1 mode "fcfs" hval ps hf hb
    constructor
    · intro r hr
      rw [scheduleV2_heap_eq rfl (by decide) hdone2] at hr
      cases hr
      simpa using hmk .v2 "fcfs" hval
    · intro _ st hst
      rw [scheduleV1_eq_of_done hdone1] at hst
      cases hst
      exact hmk .v1 "fcfs" hval
  case _ =>
    have hq1 : 1 ≤ q := hq rfl
    obtain ⟨hdone, _, hhist⟩ := rr_final q hq1 ps hf hb
    constructor
    · intro r hr
      rw [scheduleV2_rr_eq hdone] at hr
      cases hr
      have hclock : 0 < (rRun q (schedBound ps) (initR ps)).clock := by
        have := rRun_clock_pos hq1
          (InvTR_initR (fun p hp => by rw [(hf p hp).1]; exact hb p hp))
          (initR_not_done hps) (schedBound_pos ps)
        simpa [initR] using this
      have hidle : (rRun q (schedBound ps) (initR ps)).idleTime ≤
          (rRun q (schedBound ps) (initR ps)).clock := by
        have := hhist.2.2
        omega
      rw [rResult_cpuUtilization, rResult_idleTime, systemMetricsR_util hclock,
        systemMetricsR_idleTime]
      exact util_bounds hclock hidle
    · intro hne
      exact absurd rfl hne

/-- C8 amended witness: the amended bounds at the concrete RR scenario. -/
theorem c8_amended_witness :
    (∀ r, scheduleV2 [mkProcess "P1" 0 5 1 "CPU", mkProcess "P2" 1 3 1 "CPU"]
        "preemptive" "rr" 2 = some r →
      0 ≤ r.cpuUtilization ∧ r.cpuUtilization ≤ 100 ∧
      (r.cpuUtilization = 100 ↔ r.idleTime = 0)) ∧
    ("rr" ≠ "rr" → ∀ st, scheduleV1 [mkProcess "P1" 0 5 1 "CPU",
        mkProcess "P2" 1 3 1 "CPU"] "preemptive" "rr" = some st →
      0 ≤ st.cpuUtilization ∧ st.cpuUtilization ≤ 100 ∧
      (st.cpuUtilization = 100 ↔ st.idleTime = 0)) :=
  c8_amended [mkProcess "P1" 0 5 1 "CPU", mkProcess "P2" 1 3 1 "CPU"]
    "preemptive" "rr" 2 (by decide) (by decide) (by decide) (fun _ => by decide)

end HeapSched

namespace HeapSched

/-! ### Non-preemptable configurations run a dispatched process to completion -/

/-- The completed record of a process that, running with `n` remaining
ticks at clock `c0`, executes every tick `c0, ..., c0+n-1` and finishes at
`c0 + n`. -/
def completionRecord (var : Variant) (c0 n : Nat) (r : Process) : Process :=
  applyMetrics var
    { r with remaining := 0
             executionHistory := r.executionHistory ++ histTicks c0 n
             finish := some (c0 + n)
             state := "TERMINATED" }

theorem phasePreempt_no_fire {var : Variant} {mode alg : String} {st : HState}
    (hc : ¬ (mode = "preemptive" ∧ (alg = "priority" ∨ alg = "sjf"))) :
    phasePreempt var mode alg st = st := by
  unfold phasePreempt
  cases hr : st.running with
  | none => rfl
  | some r =>
    dsimp only
    rw [if_neg]
    intro h
    exact hc ⟨h.1, shouldPreempt_alg h.2.2⟩

theorem phaseDispatch_running {var : Variant} {st : HState} {r : Process}
    (h : st.running = some r) : phaseDispatch var st = st := by
  unfold phaseDispatch
  rw [h]

theorem heapStep_running_eq {var : Variant} {mode alg : String} {st : HState}
    {r : Process} (hc : ¬ (mode = "preemptive" ∧ (alg = "priority" ∨ alg = "sjf")))
    (h : st.running = some r) :
    heapStep var mode alg st = phaseExec var (phaseAdmit alg st) := by
  rw [heapStep_def, phasePreempt_no_fire hc,
    phaseDispatch_running (r := r) (by rw [phaseAdmit_running]; exact h)]

theorem completion_record_eq {r : Process} {c : Nat} (h : r.remaining = 1)
    (var : Variant) :
    applyMetrics var { tickProc c r with finish := some (c + 1), state := "TERMINATED" } =
      completionRecord var c 1 r := by
  have h0 : r.remaining - 1 = 0 := by omega
  have h2 : histTicks c 1 = [c] := by
    unfold histTicks
    rw [show List.range 1 = [0] from rfl]
    simp
  unfold completionRecord tickProc
  rw [h0, h2]

theorem completionRecord_shift (var : Variant) (c n : Nat) (r : Process) :
    completionRecord var (c + 1) n (tickProc c r) = completionRecord var c (n + 1) r := by
  have h2 : histTicks c (n + 1) = c :: histTicks (c + 1) n := by
    unfold histTicks
    rw [List.range_succ_eq_map]
    rw [List.map_cons, List.map_map]
    congr 1
    exact List.map_congr_left (fun i _ => by simp [Nat.succ_eq_add_one]; omega)
  unfold completionRecord tickProc
  rw [h2]
  rw [show c + 1 + n = c + (n + 1) from by omega]
  rw [show (r.executionHistory ++ [c]) ++ histTicks (c + 1) n =
      r.executionHistory ++ (c :: histTicks (c + 1) n) from by
    rw [List.append_assoc]; rfl]

/-- C7: in a configuration that can never preempt — non-preemptive mode
with any algorithm, or the FCFS algorithm in either mode — a process that
holds the CPU with `n > 0` remaining ticks executes on every one of the
next `n` ticks and terminates: after exactly `n` loop iterations it is
appended to the completed list with finish time `clock + n` and an
execution history extended by exactly the ticks `clock, ..., clock+n-1`;
it is never returned to the ready heap.  This covers both files' heap
schedulers via the shared step function. -/
theorem c7_run_to_completion (var : Variant) (mode alg : String)
    (hc : ¬ (mode = "preemptive" ∧ (alg = "priority" ∨ alg = "sjf"))) :
    ∀ (n : Nat) (st : HState) (r : Process), st.running = some r →
      r.remaining = (n : Int) → 1 ≤ n →
      ((heapStep var mode alg)^[n] st).completed =
        st.completed ++ [completionRecord var st.clock n r] ∧
      ((heapStep var mode alg)^[n] st).running = none ∧
      ((heapStep var mode alg)^[n] st).clock = st.clock + n := by
  intro n
  induction n with
  | zero =>
    intro st r _ _ h1
    omega
  | succ n ih =>
    intro st r hrun hn hpos
    by_cases hz : n = 0
    · subst hz
      rw [Function.iterate_one]
      rw [heapStep_running_eq hc hrun]
      have hrem1 : r.remaining = 1 := by
        rw [hn]
        rfl
      have hz1 : r.remaining - 1 = 0 := by omega
      rw [phaseExec_some_done var (by rw [phaseAdmit_running]; exact hrun) hz1]
      refine ⟨?_, rfl, ?_⟩
      · show (phaseAdmit alg st).completed ++ _ = _
        rw [phaseAdmit_completed, phaseAdmit_clock]
        rw [completion_record_eq hrem1 var]
      · show (phaseAdmit alg st).clock + 1 = st.clock + 1
        rw [phaseAdmit_clock]
    · have hone : 1 ≤ n := by omega
      rw [Function.iterate_succ_apply]
      have hz1 : ¬ r.remaining - 1 = 0 := by
        rw [hn]
        push_cast
        omega
      have hstep : heapStep var mode alg st =
          { phaseAdmit alg st with
              running := some (tickProc (phaseAdmit alg st).clock r)
              clock := (phaseAdmit alg st).clock + 1
              lastPid := execLastPid var (phaseAdmit alg st).lastPid r } := by
        rw [heapStep_running_eq hc hrun]
        exact phaseExec_some_run var (by rw [phaseAdmit_running]; exact hrun) hz1
      rw [hstep]
      have hrem' : (tickProc (phaseAdmit alg st).clock r).remaining = (n : Int) := by
        rw [tickProc_remaining, hn]
        push_cast
        omega
      obtain ⟨hcomp, hrunF, hclockF⟩ := ih
        { phaseAdmit alg st with
            running := some (tickProc (phaseAdmit alg st).clock r)
            clock := (phaseAdmit alg st).clock + 1
            lastPid := execLastPid var (phaseAdmit alg st).lastPid r }
        (tickProc (phaseAdmit alg st).clock r) rfl hrem' hone
      refine ⟨?_, hrunF, ?_⟩
      · rw [hcomp]
        show (phaseAdmit alg st).completed ++ _ = st.completed ++ _
        rw [phaseAdmit_completed, phaseAdmit_clock]
        rw [show (completionRecord var (st.clock + 1) n (tickProc st.clock r)) =
            completionRecord var st.clock (n + 1) r from completionRecord_shift var st.clock n r]
      · rw [hclockF]
        show (phaseAdmit alg st).clock + 1 + n = st.clock + (n + 1)
        rw [phaseAdmit_clock]
        omega

/-- C7 witness: a running FCFS process with 2 remaining ticks at clock 5
completes exactly two iterations later. -/
theorem c7_run_to_completion_witness :
    ¬ ("preemptive" = "preemptive" ∧ ("fcfs" = "priority" ∨ "fcfs" = "sjf")) ∧
    (let r : Process := { mkProcess "A" 0 2 1 "CPU" with
        remaining := 2, start := some 5, state := "RUNNING" }
     let st : HState := { pending := [], ready := [], running := some r, clock := 5,
                          completed := [], idleTime := 0, contextSwitches := 0,
                          lastPid := some "A", dispatchLog := ["A"],
                          cpuUtilization := 0, throughput := 0 }
     ((heapStep .v1 "preemptive" "fcfs")^[2] st).completed =
        st.completed ++ [completionRecord .v1 st.clock 2 r] ∧
     ((heapStep .v1 "preemptive" "fcfs")^[2] st).running = none ∧
     ((heapStep .v1 "preemptive" "fcfs")^[2] st).clock = st.clock + 2) := by
  refine ⟨by decide, ?_⟩
  exact c7_run_to_completion .v1 "preemptive" "fcfs" (by decide) 2 _ _ rfl rfl (by decide)

end HeapSched

namespace HeapSched

/-- C9 witness: for the two-process round-robin workload with quantum 2,
the scheduler's idle time plus the total recorded execution ticks equals
the final clock, and no tick is recorded twice. -/
theorem c9_tick_accounting_witness :
    (∀ p ∈ [mkProcess "A" 0 2 1 "CPU", mkProcess "B" 1 3 2 "CPU"], Fresh p ∧ 1 ≤ p.burst) ∧
    ((∀ r, scheduleV2 [mkProcess "A" 0 2 1 "CPU", mkProcess "B" 1 3 2 "CPU"]
        "preemptive" "rr" 2 = some r →
      r.idleTime + ((r.completed.map (fun p => p.executionHistory.length)).sum) = r.clock ∧
      ((r.completed.map (fun p => p.executionHistory)).flatten).Nodup) ∧
    ("rr" ≠ "rr" → ∀ st, scheduleV1 [mkProcess "A" 0 2 1 "CPU", mkProcess "B" 1 3 2 "CPU"]
        "preemptive" "rr" = some st →
      st.idleTime + ((st.completed.map (fun p => p.executionHistory.length)).sum) = st.clock ∧
      ((st.completed.map (fun p => p.executionHistory)).flatten).Nodup)) :=
  ⟨by decide,
   c9_tick_accounting [mkProcess "A" 0 2 1 "CPU", mkProcess "B" 1 3 2 "CPU"]
     "preemptive" "rr" 2 (by decide) (Or.inr (Or.inr (Or.inr rfl))) (fun _ => by decide)⟩

end HeapSched

namespace HeapSched

/-! ### Unknown algorithm strings: the silent empty run, and mode irrelevance -/

/-- Termination measure of the heap loop under an unknown algorithm, where
the ready heap and the CPU stay empty: distance to the last pending
arrival, plus one while anything is still pending. -/
def measureU (st : HState) : Nat :=
  gapAux st.pending st.clock + (if st.pending = [] then 0 else 1)

theorem gapAux_succ_le {l : List Process} {c : Nat} (h : 1 ≤ gapAux l c) :
    gapAux l (c + 1) + 1 ≤ gapAux l c := by
  unfold gapAux at *
  cases hz : l.getLast? with
  | none =>
    rw [hz] at h
    simp at h
  | some z =>
    rw [hz] at h
    dsimp only at h ⊢
    omega

theorem phasePreempt_not_running {var : Variant} {mode alg : String} {st : HState}
    (h : st.running = none) : phasePreempt var mode alg st = st := by
  unfold phasePreempt
  rw [h]

theorem phaseDispatch_empty {var : Variant} {st : HState}
    (h : st.running = none) (he : st.ready = []) : phaseDispatch var st = st := by
  unfold phaseDispatch
  rw [h, he]
  rfl

theorem phaseAdmit_unknown {alg : String} (hu : ¬ ValidAlg alg) (st : HState) :
    phaseAdmit alg st = { st with pending := st.pending.dropWhile (admitP st.clock) } := by
  unfold phaseAdmit
  dsimp only
  rw [admitLoop_eq]
  dsimp only
  rw [admitEntries_unknown hu, List.append_nil]

/-- One loop iteration under an unknown algorithm with empty heap and idle
CPU: the arrived prefix of `pending` is dropped (marked READY but pushed
nowhere), nothing is dispatched, and the tick is idle. -/
theorem heapStep_unknown {alg : String} (hu : ¬ ValidAlg alg) (var : Variant)
    (mode : String) {st : HState} (hready : st.ready = []) (hrun : st.running = none) :
    heapStep var mode alg st =
      { st with pending := st.pending.dropWhile (admitP st.clock)
                clock := st.clock + 1, idleTime := st.idleTime + 1 } := by
  have h1 : ({ st with pending := st.pending.dropWhile (admitP st.clock) } : HState).running
      = none := hrun
  have h2 : ({ st with pending := st.pending.dropWhile (admitP st.clock) } : HState).ready
      = [] := hready
  rw [heapStep_def, phaseAdmit_unknown hu, phasePreempt_not_running h1,
    phaseDispatch_empty h1 h2, phaseExec_none var h1]

/-- The heap loop under an unknown algorithm reaches the exit condition
with nothing ever completed, every tick idle, and no context switch or
dispatch recorded. -/
theorem hRun_unknown {alg : String} (hu : ¬ ValidAlg alg) (var : Variant) (mode : String) :
    ∀ (n : Nat) (st : HState), st.ready = [] → st.running = none →
      st.pending.Sorted arrivalLE → measureU st ≤ n →
      hDone (hRun var mode alg n st) ∧
      (hRun var mode alg n st).completed = st.completed ∧
      (hRun var mode alg n st).idleTime + st.clock =
        st.idleTime + (hRun var mode alg n st).clock := by
  intro n
  induction n with
  | zero =>
    intro st hre hru hso hm
    have hp : st.pending = [] := by
      by_contra hne
      have h1 : 1 ≤ measureU st := by
        unfold measureU
        rw [if_neg hne]
        omega
      omega
    refine ⟨⟨hp, hre, hru⟩, rfl, ?_⟩
    show st.idleTime + st.clock = st.idleTime + st.clock
    rfl
  | succ n ih =>
    intro st hre hru hso hm
    by_cases hd : hDone st
    · rw [hRun_of_done hd]
      exact ⟨hd, rfl, by omega⟩
    · have hp : st.pending ≠ [] := fun hp => hd ⟨hp, hre, hru⟩
      rw [hRun, if_neg hd, heapStep_unknown hu var mode hre hru]
      obtain ⟨st', hst'⟩ : ∃ s, s =
          ({ st with pending := st.pending.dropWhile (admitP st.clock)
                     clock := st.clock + 1, idleTime := st.idleTime + 1 } : HState) :=
        ⟨_, rfl⟩
      rw [← hst']
      have hre' : st'.ready = [] := by rw [hst']; exact hre
      have hru' : st'.running = none := by rw [hst']; exact hru
      have hso' : st'.pending.Sorted arrivalLE := by
        rw [hst']
        exact List.Pairwise.sublist (List.dropWhile_sublist _) hso
      have hm0 : gapAux st.pending st.clock + 1 ≤ n + 1 := by
        unfold measureU at hm
        rw [if_neg hp] at hm
        omega
      have hm' : measureU st' ≤ n := by
        rw [hst']
        unfold measureU
        dsimp only
        cases hdw : st.pending.dropWhile (admitP st.clock) with
        | nil =>
          rw [if_pos rfl]
          simp [gapAux]
        | cons x xs =>
          rw [if_neg (List.cons_ne_nil x xs)]
          have hx : admitP st.clock x = false := dropWhile_head_false _ hdw
          have hxa : ¬ x.arrival ≤ (st.clock : Int) := by simpa [admitP] using hx
          have hso2 : (x :: xs).Sorted arrivalLE := by
            rw [← hdw]
            exact List.Pairwise.sublist (List.dropWhile_sublist _) hso
          have hpos : 1 ≤ gapAux (x :: xs) st.clock := gapAux_pos rfl hso2 hxa
          have hlast : (x :: xs).getLast? = st.pending.getLast? := by
            rw [← hdw]
            exact dropWhile_getLast? _ _ (by rw [hdw]; exact List.cons_ne_nil x xs)
          have hgeq : gapAux (x :: xs) st.clock = gapAux st.pending st.clock := by
            unfold gapAux
            rw [hlast]
          have hdec := gapAux_succ_le hpos
          omega
      obtain ⟨hdF, hcF, hiF⟩ := ih st' hre' hru' hso' hm'
      have e1 : st'.clock = st.clock + 1 := by rw [hst']
      have e2 : st'.idleTime = st.idleTime + 1 := by rw [hst']
      have e3 : st'.completed = st.completed := by rw [hst']
      exact ⟨hdF, by rw [hcF, e3], by omega⟩

theorem measureU_initH_le (ps : List Process) : measureU (initH ps) ≤ maxArrival ps + 1 := by
  have hg : gapAux (sortByArrival ps) 0 ≤ maxArrival ps := by
    unfold gapAux
    cases hz : (sortByArrival ps).getLast? with
    | none => exact Nat.zero_le _
    | some p =>
      dsimp only
      have hmem : p ∈ ps := (sortByArrival_perm ps).mem_iff.1 (mem_getLast? hz)
      have := le_maxArrival hmem
      omega
  unfold measureU initH
  dsimp only
  split <;> omega

theorem phasePreempt_other_mode {var : Variant} {mode alg : String} {st : HState}
    (hm : mode ≠ "preemptive") : phasePreempt var mode alg st = st := by
  unfold phasePreempt
  cases hr : st.running with
  | none => rfl
  | some r =>
    dsimp only
    rw [if_neg]
    intro h
    exact hm h.1

theorem heapStep_mode_irrel {var : Variant} {mode alg : String}
    (hm : mode ≠ "preemptive") (st : HState) :
    heapStep var mode alg st = heapStep var "non-preemptive" alg st := by
  rw [heapStep_def, heapStep_def, phasePreempt_other_mode hm,
    phasePreempt_other_mode (by decide)]

theorem hRun_mode_irrel {var : Variant} {mode alg : String} (hm : mode ≠ "preemptive") :
    ∀ (n : Nat) (st : HState),
      hRun var mode alg n st = hRun var "non-preemptive" alg n st := by
  intro n
  induction n with
  | zero => intro st; rfl
  | succ n ih =>
    intro st
    by_cases hd : hDone st
    · rw [hRun_of_done hd, hRun_of_done hd]
    · have h1 : hRun var mode alg (n + 1) st =
          hRun var mode alg n (heapStep var mode alg st) := by
        rw [hRun, if_neg hd]
      have h2 : hRun var "non-preemptive" alg (n + 1) st =
          hRun var "non-preemptive" alg n (heapStep var "non-preemptive" alg st) := by
        rw [hRun, if_neg hd]
      rw [h1, h2, heapStep_mode_irrel hm, ih]

end HeapSched

namespace HeapSched

/-- C3 (amended): no `ConfigurationError` exists in either file.  An
algorithm string outside the recognised set is accepted silently: the
heap loop admits every process at its arrival but pushes none of them, so
the run terminates normally, returns an empty completed list, and counts
every elapsed tick as idle — in `scheduler_code.py` this applies to any
`algorithm` not in {"priority", "sjf", "fcfs"} (including "rr"), and in
`scheduler_code_rr.py` to any string whose lower-casing is not in
{"priority", "sjf", "fcfs", "rr"}.  A `mode` string other than
"preemptive" is likewise accepted silently and behaves exactly as
"non-preemptive" in both files. -/
theorem c3_amended (ps : List Process) (mode alg : String) (q : Int) :
    (¬ ValidAlg alg →
      ∃ st, scheduleV1 ps mode alg = some st ∧
        st.completed = [] ∧ st.idleTime = st.clock) ∧
    (¬ ValidAlg (lowerString alg) → lowerString alg ≠ "rr" →
      ∃ r, scheduleV2 ps mode alg q = some r ∧
        r.completed = [] ∧ r.idleTime = r.clock) ∧
    (mode ≠ "preemptive" →
      scheduleV1 ps mode alg = scheduleV1 ps "non-preemptive" alg ∧
      scheduleV2 ps mode alg q = scheduleV2 ps "non-preemptive" alg q) := by
  have hfuel : measureU (initH ps) ≤ schedBound ps := by
    have := measureU_initH_le ps
    unfold schedBound
    omega
  refine ⟨?_, ?_, ?_⟩
  · intro hu
    obtain ⟨hdone, hcomp, hidle⟩ := hRun_unknown hu .v1 mode (schedBound ps) (initH ps)
      rfl rfl (sortByArrival_sorted ps) hfuel
    refine ⟨_, scheduleV1_eq_of_done hdone, ?_, ?_⟩
    · rw [systemMetrics_completed, hcomp]
      rfl
    · rw [systemMetrics_idleTime, systemMetrics_clock]
      have h0 : (initH ps).clock = 0 := rfl
      have h1 : (initH ps).idleTime = 0 := rfl
      omega
  · intro hu hrr
    obtain ⟨hdone, hcomp, hidle⟩ := hRun_unknown hu .v2 mode (schedBound ps) (initH ps)
      rfl rfl (sortByArrival_sorted ps) hfuel
    refine ⟨hResult (systemMetrics
        (hRun .v2 mode (lowerString alg) (schedBound ps) (initH ps))), ?_, ?_, ?_⟩
    · unfold scheduleV2
      dsimp only
      rw [if_neg hrr, if_pos hdone]
    · rw [hResult_completed, systemMetrics_completed, hcomp]
      rfl
    · rw [hResult_idleTime, hResult_clock, systemMetrics_idleTime, systemMetrics_clock]
      have h0 : (initH ps).clock = 0 := rfl
      have h1 : (initH ps).idleTime = 0 := rfl
      omega
  · intro hm
    constructor
    · unfold scheduleV1
      dsimp only
      rw [hRun_mode_irrel hm]
    · unfold scheduleV2 scheduleRR
      dsimp only
      rw [hRun_mode_irrel hm]

instance (alg : String) : Decidable (ValidAlg alg) := by
  unfold ValidAlg
  infer_instance

/-- C3 witness: the unknown algorithm "mlfq" under the unknown mode
"batch" runs silently to an empty result in both files, and "batch"
behaves as "non-preemptive". -/
theorem c3_amended_witness :
    ¬ ValidAlg "mlfq" ∧ ¬ ValidAlg (lowerString "mlfq") ∧ lowerString "mlfq" ≠ "rr" ∧
    "batch" ≠ "preemptive" ∧
    (∃ st, scheduleV1 [mkProcess "A" 0 2 1 "CPU"] "batch" "mlfq" = some st ∧
      st.completed = [] ∧ st.idleTime = st.clock) ∧
    (∃ r, scheduleV2 [mkProcess "A" 0 2 1 "CPU"] "batch" "mlfq" 2 = some r ∧
      r.completed = [] ∧ r.idleTime = r.clock) ∧
    scheduleV1 [mkProcess "A" 0 2 1 "CPU"] "batch" "mlfq" =
      scheduleV1 [mkProcess "A" 0 2 1 "CPU"] "non-preemptive" "mlfq" := by
  refine ⟨by decide, by decide, by decide, by decide, ?_, ?_, ?_⟩
  · exact (c3_amended [mkProcess "A" 0 2 1 "CPU"] "batch" "mlfq" 2).1 (by decide)
  · exact (c3_amended [mkProcess "A" 0 2 1 "CPU"] "batch" "mlfq" 2).2.1 (by decide) (by decide)
  · exact ((c3_amended [mkProcess "A" 0 2 1 "CPU"] "batch" "mlfq" 2).2.2 (by decide)).1

end HeapSched

namespace HeapSched

/-! ### C5: deterministic tie-breaking of the dispatch order -/

/-- The key under which a record is pushed by a recognised algorithm
(the tuple expressions at the `heapq.heappush` call sites). -/
def keyFor (alg : String) (p : Process) : Key :=
  if alg = "priority" then (-p.priority, p.arrival, p.pid)
  else if alg = "sjf" then (p.remaining, p.arrival, p.pid)
  else (p.arrival, 0, p.pid)

theorem admitKey_keyFor {alg : String} (h : ValidAlg alg) (p : Process) :
    admitKey alg p = some (keyFor alg p) := by
  rcases h with h | h | h <;> subst h <;> rfl

theorem keyFor_readyProc (alg : String) (p : Process) :
    keyFor alg (readyProc p) = keyFor alg p := rfl

theorem keyFor_preemptedProc (alg : String) (var : Variant) (p : Process) :
    keyFor alg (preemptedProc var p) = keyFor alg p := rfl

@[simp] theorem dispatchedProc_arrival (var : Variant) (c : Nat) (p : Process) :
    (dispatchedProc var c p).arrival = p.arrival := by
  unfold dispatchedProc
  dsimp only
  cases p.start <;> rfl

@[simp] theorem dispatchedProc_priority (var : Variant) (c : Nat) (p : Process) :
    (dispatchedProc var c p).priority = p.priority := by
  unfold dispatchedProc
  dsimp only
  cases p.start <;> rfl

@[simp] theorem tickProc_arrival (c : Nat) (p : Process) :
    (tickProc c p).arrival = p.arrival := rfl

theorem keyFor_dispatchedProc (alg : String) (var : Variant) (c : Nat) (p : Process) :
    keyFor alg (dispatchedProc var c p) = keyFor alg p := by
  unfold keyFor
  rw [dispatchedProc_priority, dispatchedProc_arrival, dispatchedProc_remaining,
    dispatchedProc_pid]

theorem takeWhile_append_stop {α : Type} (p : α → Bool) (t : List α) :
    ∀ {l : List α}, (∃ x ∈ l, p x = false) → (l ++ t).takeWhile p = l.takeWhile p := by
  intro l
  induction l with
  | nil =>
    rintro ⟨x, hx, _⟩
    cases hx
  | cons a as ih =>
    rintro ⟨x, hx, hpx⟩
    rw [List.cons_append, List.takeWhile_cons, List.takeWhile_cons]
    by_cases hpa : p a = true
    · rw [if_pos hpa, if_pos hpa]
      have hex : ∃ y ∈ as, p y = false := by
        rcases List.mem_cons.1 hx with rfl | hx2
        · rw [hpa] at hpx
          cases hpx
        · exact ⟨x, hx2, hpx⟩
      rw [ih hex]
    · rw [if_neg hpa, if_neg hpa]

theorem takeWhile_append_all {α : Type} (p : α → Bool) (t : List α) :
    ∀ {l : List α}, (∀ x ∈ l, p x = true) → (l ++ t).takeWhile p = l ++ t.takeWhile p := by
  intro l
  induction l with
  | nil => intro _; rfl
  | cons a as ih =>
    intro h
    have hpa : p a = true := h a (List.mem_cons_self _ _)
    rw [List.cons_append, List.takeWhile_cons, if_pos hpa,
      ih (fun x hx => h x (List.mem_cons_of_mem _ hx)), List.cons_append]

theorem dropWhile_arrival_gt {c : Nat} {l : List Process} (hs : l.Sorted arrivalLE)
    {x : Process} (hx : x ∈ l.dropWhile (admitP c)) : ¬ x.arrival ≤ (c : Int) := by
  cases hdw : l.dropWhile (admitP c) with
  | nil =>
    rw [hdw] at hx
    cases hx
  | cons y ys =>
    rw [hdw] at hx
    have hy : admitP c y = false := dropWhile_head_false _ hdw
    have hya : ¬ y.arrival ≤ (c : Int) := by simpa [admitP] using hy
    have hsd : (y :: ys).Sorted arrivalLE := by
      rw [← hdw]
      exact List.Pairwise.sublist (List.dropWhile_sublist _) hs
    rcases List.mem_cons.1 hx with rfl | hx2
    · exact hya
    · have hyx := (List.sorted_cons.1 hsd).1 x hx2
      intro hcon
      exact hya (le_trans hyx hcon)

theorem pidsOf_phaseAdmit {alg : String} (hval : ValidAlg alg) (st : HState) :
    pidsOf (phaseAdmit alg st) = pidsOf st := by
  unfold pidsOf
  exact projOf_phaseAdmit (fun p => {p.pid}) (fun p => by simp) hval st

theorem pidsOf_phasePreempt (var : Variant) (mode alg : String) (st : HState) :
    pidsOf (phasePreempt var mode alg st) = pidsOf st := by
  unfold pidsOf
  exact projOf_phasePreempt (fun p => {p.pid}) (fun var p => by simp) var mode alg st

theorem pidsOf_phaseDispatch (var : Variant) (st : HState) :
    pidsOf (phaseDispatch var st) = pidsOf st := by
  unfold pidsOf
  exact projOf_phaseDispatch (fun p => {p.pid}) (fun var c p => by simp) var st

theorem pidsOf_phaseExec (var : Variant) (st : HState) :
    pidsOf (phaseExec var st) = pidsOf st := by
  unfold pidsOf
  rw [projOf_phaseExec (fun p => {p.pid}) (fun _ => 0)
    (fun c p => by simp) (fun var p h s => by simp)]
  cases st.running <;> simp

theorem projMul_pid_count (x : String) (l : List Process) {p : Process}
    (hp : p ∈ l) (hx : p.pid = x) :
    1 ≤ Multiset.count x (projMul (fun q => ({q.pid} : Multiset String)) l) := by
  induction l with
  | nil => cases hp
  | cons q qs ih =>
    rw [projMul_cons, Multiset.count_add]
    rcases List.mem_cons.1 hp with rfl | hp2
    · have h1 : Multiset.count x ({p.pid} : Multiset String) = 1 := by
        rw [hx]
        simp
      omega
    · have := ih hp2
      omega

theorem pids_nodup_not_both {st : HState} (hnd : (pidsOf st).Nodup) {x : String}
    {p q : Process} (hp : p ∈ st.pending) (hq : q ∈ st.ready.map Prod.snd)
    (hpx : p.pid = x) (hqx : q.pid = x) : False := by
  have h1 := projMul_pid_count x st.pending hp hpx
  have h2 := projMul_pid_count x (st.ready.map Prod.snd) hq hqx
  have hc : 2 ≤ Multiset.count x (pidsOf st) := by
    unfold pidsOf projOf
    simp only [Multiset.count_add]
    omega
  have := Multiset.nodup_iff_count_le_one.1 hnd x
  omega

/-- Whether a record with a given pid sits in the un-admitted suffix. -/
def pidInPending (x : String) (st : HState) : Prop := ∃ p ∈ st.pending, p.pid = x

/-- Whether a record with a given pid sits in the ready heap. -/
def pidInReady (x : String) (st : HState) : Prop := ∃ kp ∈ st.ready, kp.2.pid = x

/-- The tie-breaking invariant for two fixed records `a`, `b` of equal
arrival whose keys order `a` strictly first: (1) in the dispatch log every
occurrence of `b` is preceded by `a`; (2) `a` and `b` leave the pending
list together; (3) until dispatched, `a` is pending or ready; (4) every
heap entry carries the key computed from its own record; (5) records
carrying `a`'s (resp. `b`'s) pid keep its arrival, and its key while it is
undispatched; (6) a running record was dispatched; (7) pids are unique
across the state. -/
def TieInv (alg : String) (a b : Process) (st : HState) : Prop :=
  (b.pid ∈ st.dispatchLog →
      a.pid ∈ st.dispatchLog.takeWhile (fun s => s != b.pid)) ∧
  (pidInPending a.pid st ↔ pidInPending b.pid st) ∧
  (a.pid ∉ st.dispatchLog → pidInPending a.pid st ∨ pidInReady a.pid st) ∧
  (∀ kp ∈ st.ready, kp.1 = keyFor alg kp.2) ∧
  (∀ p, p ∈ st.pending ∨ (∃ k, (k, p) ∈ st.ready) ∨ st.running = some p →
      (p.pid = a.pid → p.arrival = a.arrival ∧
        (a.pid ∉ st.dispatchLog → keyFor alg p = keyFor alg a)) ∧
      (p.pid = b.pid → p.arrival = b.arrival ∧
        (b.pid ∉ st.dispatchLog → keyFor alg p = keyFor alg b))) ∧
  (∀ r, st.running = some r → r.pid ∈ st.dispatchLog) ∧
  (pidsOf st).Nodup

end HeapSched

namespace HeapSched

theorem TieInv_phaseAdmit {alg : String} (hval : ValidAlg alg) {a b : Process}
    (hab : a.arrival = b.arrival) {st : HState} (hsort : st.pending.Sorted arrivalLE)
    (hT : TieInv alg a b st) : TieInv alg a b (phaseAdmit alg st) := by
  obtain ⟨h1, h2, h3, h4, h5, h6, h7⟩ := hT
  have hpend := phaseAdmit_pending alg st
  have hready := phaseAdmit_ready alg st
  refine ⟨?_, ?_, ?_, ?_, ?_, ?_, ?_⟩
  · simpa using h1
  · constructor
    · rintro ⟨p, hp, hpx⟩
      rw [hpend] at hp
      have hpmem : p ∈ st.pending := (List.dropWhile_sublist _).mem hp
      have hgt : ¬ p.arrival ≤ (st.clock : Int) := dropWhile_arrival_gt hsort hp
      obtain ⟨q, hq, hqx⟩ := h2.1 ⟨p, hpmem, hpx⟩
      refine ⟨q, ?_, hqx⟩
      rw [hpend]
      have hpa : p.arrival = a.arrival := ((h5 p (Or.inl hpmem)).1 hpx).1
      have hqb : q.arrival = b.arrival := ((h5 q (Or.inl hq)).2 hqx).1
      have hqgt : ¬ q.arrival ≤ (st.clock : Int) := by
        rw [hqb, ← hab, ← hpa]
        exact hgt
      exact mem_dropWhile_of_not hq hqgt
    · rintro ⟨p, hp, hpx⟩
      rw [hpend] at hp
      have hpmem : p ∈ st.pending := (List.dropWhile_sublist _).mem hp
      have hgt : ¬ p.arrival ≤ (st.clock : Int) := dropWhile_arrival_gt hsort hp
      obtain ⟨q, hq, hqx⟩ := h2.2 ⟨p, hpmem, hpx⟩
      refine ⟨q, ?_, hqx⟩
      rw [hpend]
      have hpa : p.arrival = b.arrival := ((h5 p (Or.inl hpmem)).2 hpx).1
      have hqb : q.arrival = a.arrival := ((h5 q (Or.inl hq)).1 hqx).1
      have hqgt : ¬ q.arrival ≤ (st.clock : Int) := by
        rw [hqb, hab, ← hpa]
        exact hgt
      exact mem_dropWhile_of_not hq hqgt
  · intro ha0
    simp only [phaseAdmit_dispatchLog] at ha0
    rcases h3 ha0 with ⟨p, hp, hpx⟩ | ⟨kp, hkp, hkx⟩
    · have hsplit := List.takeWhile_append_dropWhile (admitP st.clock) st.pending
      have hp2 : p ∈ st.pending.takeWhile (admitP st.clock) ++
          st.pending.dropWhile (admitP st.clock) := by
        rw [hsplit]
        exact hp
      rcases List.mem_append.1 hp2 with htw | hdw
      · right
        refine ⟨(keyFor alg (readyProc p), readyProc p), ?_, by simpa using hpx⟩
        rw [hready]
        refine List.mem_append.2 (Or.inr ?_)
        unfold admitEntries
        refine List.mem_filterMap.2 ⟨p, htw, ?_⟩
        rw [admitKey_keyFor hval]
        rfl
      · left
        exact ⟨p, by rw [hpend]; exact hdw, hpx⟩
    · right
      exact ⟨kp, by rw [hready]; exact List.mem_append.2 (Or.inl hkp), hkx⟩
  · intro kp hkp
    rw [hready] at hkp
    rcases List.mem_append.1 hkp with h | h
    · exact h4 kp h
    · unfold admitEntries at h
      obtain ⟨q, hq, hq2⟩ := List.mem_filterMap.1 h
      rw [admitKey_keyFor hval] at hq2
      simp only [Option.map_some'] at hq2
      have hq3 : kp = (keyFor alg (readyProc q), readyProc q) := (Option.some.inj hq2).symm
      rw [hq3]
  · intro p hpos
    simp only [phaseAdmit_dispatchLog]
    rcases hpos with hp | ⟨k, hk⟩ | hr
    · rw [hpend] at hp
      exact h5 p (Or.inl ((List.dropWhile_sublist _).mem hp))
    · rw [hready] at hk
      rcases List.mem_append.1 hk with h | h
      · exact h5 p (Or.inr (Or.inl ⟨k, h⟩))
      · unfold admitEntries at h
        obtain ⟨q, hq, hq2⟩ := List.mem_filterMap.1 h
        rw [admitKey_keyFor hval] at hq2
        simp only [Option.map_some', Option.some.injEq, Prod.mk.injEq] at hq2
        obtain ⟨hq2a, hq2b⟩ := hq2
        have hqmem : q ∈ st.pending := (List.takeWhile_sublist _).mem hq
        have hbase := h5 q (Or.inl hqmem)
        constructor
        · intro hpid
          have hqa : q.pid = a.pid := by
            rw [← hq2b] at hpid
            simpa using hpid
          have hres := hbase.1 hqa
          refine ⟨?_, ?_⟩
          · rw [← hq2b]
            simpa using hres.1
          · intro hlog
            rw [← hq2b, keyFor_readyProc]
            exact hres.2 hlog
        · intro hpid
          have hqb : q.pid = b.pid := by
            rw [← hq2b] at hpid
            simpa using hpid
          have hres := hbase.2 hqb
          refine ⟨?_, ?_⟩
          · rw [← hq2b]
            simpa using hres.1
          · intro hlog
            rw [← hq2b, keyFor_readyProc]
            exact hres.2 hlog
    · simp only [phaseAdmit_running] at hr
      exact h5 p (Or.inr (Or.inr hr))
  · intro r hr
    simp only [phaseAdmit_running] at hr
    simp only [phaseAdmit_dispatchLog]
    exact h6 r hr
  · rw [pidsOf_phaseAdmit hval]
    exact h7

end HeapSched

namespace HeapSched

theorem TieInv_phasePreempt {alg : String} (hval : ValidAlg alg) {a b : Process}
    (var : Variant) (mode : String) {st : HState}
    (hT : TieInv alg a b st) : TieInv alg a b (phasePreempt var mode alg st) := by
  rcases phasePreempt_cases var mode alg st with hc | ⟨r, k, hrun, hk, hc⟩
  · rw [hc]
    exact hT
  · obtain ⟨h1, h2, h3, h4, h5, h6, h7⟩ := hT
    have hkey : k = keyFor alg (preemptedProc var r) := by
      rw [admitKey_keyFor hval] at hk
      exact (Option.some.inj hk).symm
    have hpids : pidsOf (phasePreempt var mode alg st) = pidsOf st :=
      pidsOf_phasePreempt var mode alg st
    rw [hc] at hpids ⊢
    refine ⟨h1, h2, ?_, ?_, ?_, ?_, ?_⟩
    · intro ha0
      rcases h3 ha0 with hp | ⟨kq, hkq, hkx⟩
      · exact Or.inl hp
      · exact Or.inr ⟨kq, List.mem_append.2 (Or.inl hkq), hkx⟩
    · intro kp hkp
      rcases List.mem_append.1 hkp with h | h
      · exact h4 kp h
      · have hkp2 : kp = (k, preemptedProc var r) := List.mem_singleton.1 h
        rw [hkp2]
        exact hkey
    · intro p hpos
      rcases hpos with hp | ⟨k2, hk2⟩ | hr2
      · exact h5 p (Or.inl hp)
      · rcases List.mem_append.1 hk2 with h | h
        · exact h5 p (Or.inr (Or.inl ⟨k2, h⟩))
        · have heq : (k2, p) = (k, preemptedProc var r) := List.mem_singleton.1 h
          have hpp : p = preemptedProc var r := congrArg Prod.snd heq
          subst hpp
          have h5r := h5 r (Or.inr (Or.inr hrun))
          have hrlog := h6 r hrun
          constructor
          · intro hpid
            have hrp : r.pid = a.pid := by simpa using hpid
            refine ⟨by simpa using (h5r.1 hrp).1, ?_⟩
            intro halog
            exact absurd (hrp ▸ hrlog) halog
          · intro hpid
            have hrp : r.pid = b.pid := by simpa using hpid
            refine ⟨by simpa using (h5r.2 hrp).1, ?_⟩
            intro hblog
            exact absurd (hrp ▸ hrlog) hblog
      · exact Option.noConfusion hr2
    · intro r' hr'
      exact Option.noConfusion hr'
    · rw [hpids]
      exact h7

theorem TieInv_phaseDispatch {alg : String} {a b : Process} {var : Variant} {st : HState}
    (htie : keyLt (keyFor alg a) (keyFor alg b))
    (hT : TieInv alg a b st) : TieInv alg a b (phaseDispatch var st) := by
  rcases phaseDispatch_cases var st with ⟨hc, _⟩ | ⟨kp, rest, hrun, hpop, hc⟩
  · rw [hc]
    exact hT
  · obtain ⟨h1, h2, h3, h4, h5, h6, h7⟩ := hT
    have hkpmem : kp ∈ st.ready := (popMin_perm hpop).mem_iff.2 (List.mem_cons_self _ _)
    have hp2pid : (dispatchedProc var st.clock kp.2).pid = kp.2.pid := by simp
    have hpids : pidsOf (phaseDispatch var st) = pidsOf st := pidsOf_phaseDispatch var st
    rw [hc] at hpids ⊢
    have hmain : kp.2.pid = b.pid → b.pid ∉ st.dispatchLog → a.pid ∈ st.dispatchLog := by
      intro hbpid hblog
      by_contra halog
      rcases h3 halog with ⟨p, hp, hpx⟩ | ⟨kq, hkq, hkx⟩
      · obtain ⟨q, hq, hqx⟩ := h2.1 ⟨p, hp, hpx⟩
        exact pids_nodup_not_both h7 hq (List.mem_map_of_mem Prod.snd hkpmem) hqx hbpid
      · have hkq1 : kq.1 = keyFor alg a := by
          have hf := (h5 kq.2 (Or.inr (Or.inl ⟨kq.1, hkq⟩))).1 hkx
          rw [h4 kq hkq, hf.2 halog]
        have hkp1 : kp.1 = keyFor alg b := by
          have hf := (h5 kp.2 (Or.inr (Or.inl ⟨kp.1, hkpmem⟩))).2 hbpid
          rw [h4 kp hkpmem, hf.2 hblog]
        have hnlt := popMin_min hpop kq hkq
        rw [hkq1, hkp1] at hnlt
        exact hnlt htie
    refine ⟨?_, h2, ?_, ?_, ?_, ?_, ?_⟩
    · intro hbl
      show a.pid ∈ (st.dispatchLog ++
          [(dispatchedProc var st.clock kp.2).pid]).takeWhile (fun s => s != b.pid)
      rcases List.mem_append.1 hbl with hbl2 | hbl2
      · rw [takeWhile_append_stop _ _ ⟨b.pid, hbl2, by simp⟩]
        exact h1 hbl2
      · have hbeq : b.pid = (dispatchedProc var st.clock kp.2).pid := List.mem_singleton.1 hbl2
        by_cases hbin : b.pid ∈ st.dispatchLog
        · rw [takeWhile_append_stop _ _ ⟨b.pid, hbin, by simp⟩]
          exact h1 hbin
        · have hbpid : kp.2.pid = b.pid := by
            rw [hbeq, hp2pid]
          have halog := hmain hbpid hbin
          have hall : ∀ x ∈ st.dispatchLog, (x != b.pid) = true := by
            intro x hx
            rw [bne_iff_ne]
            intro hxe
            exact hbin (hxe ▸ hx)
          rw [takeWhile_append_all _ _ hall]
          exact List.mem_append.2 (Or.inl halog)
    · intro ha0
      have ha1 : a.pid ∉ st.dispatchLog := by
        intro h
        exact ha0 (List.mem_append.2 (Or.inl h))
      rcases h3 ha1 with hp | ⟨kq, hkq, hkx⟩
      · exact Or.inl hp
      · rcases List.mem_cons.1 ((popMin_perm hpop).mem_iff.1 hkq) with heq | hrest
        · exfalso
          apply ha0
          refine List.mem_append.2 (Or.inr (List.mem_singleton.2 ?_))
          rw [hp2pid, ← heq]
          exact hkx.symm
        · exact Or.inr ⟨kq, hrest, hkx⟩
    · intro kq hkq
      exact h4 kq ((popMin_perm hpop).mem_iff.2 (List.mem_cons_of_mem _ hkq))
    · intro p hpos
      have hmono : ∀ x : String,
          x ∉ st.dispatchLog ++ [(dispatchedProc var st.clock kp.2).pid] →
          x ∉ st.dispatchLog := by
        intro x hx h
        exact hx (List.mem_append.2 (Or.inl h))
      rcases hpos with hp | ⟨k2, hk2⟩ | hr2
      · have hbase := h5 p (Or.inl hp)
        exact ⟨fun hpid => ⟨(hbase.1 hpid).1, fun h => (hbase.1 hpid).2 (hmono _ h)⟩,
          fun hpid => ⟨(hbase.2 hpid).1, fun h => (hbase.2 hpid).2 (hmono _ h)⟩⟩
      · have hk2' : (k2, p) ∈ st.ready :=
          (popMin_perm hpop).mem_iff.2 (List.mem_cons_of_mem _ hk2)
        have hbase := h5 p (Or.inr (Or.inl ⟨k2, hk2'⟩))
        exact ⟨fun hpid => ⟨(hbase.1 hpid).1, fun h => (hbase.1 hpid).2 (hmono _ h)⟩,
          fun hpid => ⟨(hbase.2 hpid).1, fun h => (hbase.2 hpid).2 (hmono _ h)⟩⟩
      · have hpp : dispatchedProc var st.clock kp.2 = p := Option.some.inj hr2
        have hbase := h5 kp.2 (Or.inr (Or.inl ⟨kp.1, hkpmem⟩))
        rw [← hpp]
        constructor
        · intro hpid
          have hqa : kp.2.pid = a.pid := by
            rw [hp2pid] at hpid
            exact hpid
          refine ⟨by simpa using (hbase.1 hqa).1, ?_⟩
          intro h
          rw [keyFor_dispatchedProc]
          exact (hbase.1 hqa).2 (hmono _ h)
        · intro hpid
          have hqb : kp.2.pid = b.pid := by
            rw [hp2pid] at hpid
            exact hpid
          refine ⟨by simpa using (hbase.2 hqb).1, ?_⟩
          intro h
          rw [keyFor_dispatchedProc]
          exact (hbase.2 hqb).2 (hmono _ h)
    · intro r' hr'
      have hpp : dispatchedProc var st.clock kp.2 = r' := Option.some.inj hr'
      rw [← hpp]
      exact List.mem_append.2 (Or.inr (List.mem_singleton.2 rfl))
    · rw [hpids]
      exact h7

end HeapSched

namespace HeapSched

theorem TieInv_phaseExec {alg : String} {a b : Process} (var : Variant) {st : HState}
    (hT : TieInv alg a b st) : TieInv alg a b (phaseExec var st) := by
  obtain ⟨h1, h2, h3, h4, h5, h6, h7⟩ := hT
  have hpids : pidsOf (phaseExec var st) = pidsOf st := pidsOf_phaseExec var st
  cases hr : st.running with
  | none =>
    rw [phaseExec_none var hr] at hpids ⊢
    exact ⟨h1, h2, h3, h4, h5, h6, by rw [hpids]; exact h7⟩
  | some r =>
    by_cases hz : r.remaining - 1 = 0
    · rw [phaseExec_some_done var hr hz] at hpids ⊢
      refine ⟨h1, h2, h3, h4, ?_, ?_, ?_⟩
      · intro p hpos
        rcases hpos with hp | ⟨k2, hk2⟩ | hr2
        · exact h5 p (Or.inl hp)
        · exact h5 p (Or.inr (Or.inl ⟨k2, hk2⟩))
        · exact Option.noConfusion hr2
      · intro r' hr'
        exact Option.noConfusion hr'
      · rw [hpids]
        exact h7
    · rw [phaseExec_some_run var hr hz] at hpids ⊢
      refine ⟨h1, h2, h3, h4, ?_, ?_, ?_⟩
      · intro p hpos
        rcases hpos with hp | ⟨k2, hk2⟩ | hr2
        · exact h5 p (Or.inl hp)
        · exact h5 p (Or.inr (Or.inl ⟨k2, hk2⟩))
        · have hpp : tickProc st.clock r = p := Option.some.inj hr2
          have hbase := h5 r (Or.inr (Or.inr hr))
          have hrlog := h6 r hr
          rw [← hpp]
          constructor
          · intro hpid
            have hrp : r.pid = a.pid := by simpa using hpid
            refine ⟨by simpa using (hbase.1 hrp).1, ?_⟩
            intro halog
            exact absurd (hrp ▸ hrlog) halog
          · intro hpid
            have hrp : r.pid = b.pid := by simpa using hpid
            refine ⟨by simpa using (hbase.2 hrp).1, ?_⟩
            intro hblog
            exact absurd (hrp ▸ hrlog) hblog
      · intro r' hr'
        have hpp : tickProc st.clock r = r' := Option.some.inj hr'
        rw [← hpp]
        show (tickProc st.clock r).pid ∈ st.dispatchLog
        simpa using h6 r hr
      · rw [hpids]
        exact h7

theorem TieInv_heapStep {alg : String} {a b : Process} {var : Variant} {mode : String}
    (hval : ValidAlg alg) (hab : a.arrival = b.arrival)
    (htie : keyLt (keyFor alg a) (keyFor alg b)) {st : HState}
    (hInv : InvT st) (hT : TieInv alg a b st) :
    TieInv alg a b (heapStep var mode alg st) := by
  rw [heapStep_def]
  exact TieInv_phaseExec var
    (TieInv_phaseDispatch htie
      (TieInv_phasePreempt hval var mode
        (TieInv_phaseAdmit hval hab hInv.2.2.2 hT)))

theorem projMul_pid_coe (l : List Process) :
    projMul (fun p => ({p.pid} : Multiset String)) l =
      Multiset.ofList (l.map Process.pid) := by
  induction l with
  | nil => rfl
  | cons p ps ih =>
    rw [projMul_cons, ih]
    simp [Multiset.cons_add]

theorem TieInv_initH {alg : String} {ps : List Process} {a b : Process}
    (ha : a ∈ ps) (hb : b ∈ ps) (hnd : (ps.map Process.pid).Nodup) :
    TieInv alg a b (initH ps) := by
  have hmem : ∀ {p : Process}, p ∈ ps → p ∈ (initH ps).pending := by
    intro p hp
    exact (sortByArrival_perm ps).mem_iff.2 hp
  have hinj : ∀ {p q : Process}, p ∈ ps → q ∈ ps → p.pid = q.pid → p = q := by
    intro p q hp hq he
    exact List.inj_on_of_nodup_map hnd hp hq he
  refine ⟨?_, ?_, ?_, ?_, ?_, ?_, ?_⟩
  · intro h
    cases h
  · exact ⟨fun _ => ⟨b, hmem hb, rfl⟩, fun _ => ⟨a, hmem ha, rfl⟩⟩
  · intro _
    exact Or.inl ⟨a, hmem ha, rfl⟩
  · intro kp h
    cases h
  · intro p hpos
    rcases hpos with hp | ⟨k, hk⟩ | hrr
    · have hp2 : p ∈ ps := (sortByArrival_perm ps).mem_iff.1 hp
      constructor
      · intro hpa
        have : p = a := hinj hp2 ha hpa
        rw [this]
        exact ⟨rfl, fun _ => rfl⟩
      · intro hpb
        have : p = b := hinj hp2 hb hpb
        rw [this]
        exact ⟨rfl, fun _ => rfl⟩
    · cases hk
    · exact Option.noConfusion hrr
  · intro r h
    exact Option.noConfusion h
  · show (pidsOf (initH ps)).Nodup
    unfold pidsOf projOf initH
    dsimp only
    rw [projMul_pid_coe]
    simp only [projMul_nil, Option.toList_none, add_zero]
    have hperm : ((sortByArrival ps).map Process.pid).Perm (ps.map Process.pid) :=
      (sortByArrival_perm ps).map Process.pid
    simpa using hperm.nodup_iff.2 hnd

end HeapSched

namespace HeapSched

theorem systemMetrics_dispatchLog (st : HState) :
    (systemMetrics st).dispatchLog = st.dispatchLog := by
  unfold systemMetrics
  split <;> rfl

/-- C5: tie-break determinism of `scheduler_code.py`'s heap scheduler.
For an input with pairwise-distinct pids and positive remaining times
containing two processes `a`, `b` of equal arrival with `a.pid < b.pid`
and equal priority (under "priority") resp. equal remaining time (under
"sjf"), every completed run dispatches `a` strictly before the first
dispatch of `b`: in the dispatch log, `a`'s pid occurs in the prefix
strictly preceding the first occurrence of `b`'s pid.  Repeatability
across runs holds by construction: `schedule()` is a deterministic
function of its input, and the heap keys `(-priority, arrival, pid)` /
`(remaining, arrival, pid)` order equal-priority ties by pid. -/
theorem c5_tie_break (ps : List Process) (mode alg : String) (a b : Process)
    (halg : alg = "priority" ∨ alg = "sjf")
    (ha : a ∈ ps) (hb : b ∈ ps)
    (hnd : (ps.map Process.pid).Nodup)
    (hrem : ∀ p ∈ ps, 1 ≤ p.remaining)
    (harr : a.arrival = b.arrival)
    (heq : (alg = "priority" → a.priority = b.priority) ∧
           (alg = "sjf" → a.remaining = b.remaining))
    (hpid : a.pid < b.pid) :
    ∀ st, scheduleV1 ps mode alg = some st →
      b.pid ∈ st.dispatchLog →
      a.pid ∈ st.dispatchLog.takeWhile (fun s => s != b.pid) := by
  have hval : ValidAlg alg := by
    rcases halg with h | h
    · exact Or.inl h
    · exact Or.inr (Or.inl h)
  have htie : keyLt (keyFor alg a) (keyFor alg b) := by
    rcases halg with h | h <;> subst h
    · unfold keyFor
      rw [if_pos rfl, if_pos rfl]
      exact Or.inr ⟨by rw [heq.1 rfl], Or.inr ⟨harr, hpid⟩⟩
    · unfold keyFor
      rw [if_neg (show ¬ ("sjf" : String) = "priority" by decide),
        if_neg (show ¬ ("sjf" : String) = "priority" by decide), if_pos rfl, if_pos rfl]
      exact Or.inr ⟨heq.2 rfl, Or.inr ⟨harr, hpid⟩⟩
  intro st hst
  unfold scheduleV1 at hst
  dsimp only at hst
  by_cases hd : hDone (hRun .v1 mode alg (schedBound ps) (initH ps))
  · rw [if_pos hd] at hst
    have hfin : InvT (hRun .v1 mode alg (schedBound ps) (initH ps)) ∧
        TieInv alg a b (hRun .v1 mode alg (schedBound ps) (initH ps)) := by
      refine hRun_preserve .v1 mode alg
        (fun s => InvT s ∧ TieInv alg a b s) ?_ (schedBound ps) (initH ps)
        ⟨InvT_initH hrem, TieInv_initH ha hb hnd⟩
      intro s hs hnds
      exact ⟨(heapStep_progress .v1 mode alg hval hs.1 hnds).1,
        TieInv_heapStep hval harr htie hs.1 hs.2⟩
    cases hst
    intro hbmem
    rw [systemMetrics_dispatchLog] at hbmem ⊢
    exact hfin.2.1 hbmem
  · rw [if_neg hd] at hst
    cases hst

/-- C5 witness: two equal-priority processes arriving together are
dispatched in ascending pid order. -/
theorem c5_tie_break_witness :
    ("priority" = "priority" ∨ ("priority" : String) = "sjf") ∧
    "A" < "B" ∧
    ∃ st, scheduleV1 [mkProcess "A" 0 2 2 "CPU", mkProcess "B" 0 2 2 "CPU"]
        "preemptive" "priority" = some st ∧
      ((mkProcess "B" 0 2 2 "CPU").pid ∈ st.dispatchLog →
        (mkProcess "A" 0 2 2 "CPU").pid ∈
          st.dispatchLog.takeWhile (fun s => s != (mkProcess "B" 0 2 2 "CPU").pid)) := by
  refine ⟨Or.inl rfl, by decide, ?_⟩
  exact ⟨_, rfl,
    c5_tie_break [mkProcess "A" 0 2 2 "CPU", mkProcess "B" 0 2 2 "CPU"]
      "preemptive" "priority" (mkProcess "A" 0 2 2 "CPU") (mkProcess "B" 0 2 2 "CPU")
      (Or.inl rfl) (by decide) (by decide) (by decide) (by decide) (by decide)
      ⟨fun _ => by decide, fun h => absurd h (by decide)⟩ (by decide) _ rfl⟩

end HeapSched
